import Mathlib

/-!
# dcm: a shallow embedding of `internal/manager` and `internal/model`

Go strings are modelled by Lean strings and manipulated through their list of
runes.  The case tables of Go's `unicode` package are not part of the
repository; they are taken as a parameter (`CaseTables`), and `asciiCase` is
their restriction to ASCII, on which concrete runs are evaluated.
-/

namespace Dcm

/-! ## `strings` primitives used by the manager -/

/-- Rune-level case tables of the Go standard library: `toLower` is
`unicode.ToLower`, `foldEq a b` says that two different runes are identified by
simple case folding (the test made by `strings.EqualFold` once `a == b` failed). -/
structure CaseTables where
  toLower : Char → Char
  foldEq : Char → Char → Bool

/-- The case tables restricted to ASCII: only `A`..`Z` and `a`..`z` are related. -/
def asciiCase : CaseTables where
  toLower := Char.toLower
  foldEq := fun a b => a.toLower == b.toLower

/-- Go `strings.ToLower`: the rune-wise image under `unicode.ToLower`. -/
def ToLower (t : CaseTables) (s : String) : List Char :=
  s.data.map t.toLower

/-- Go `strings.HasPrefix` on rune lists. -/
def hasPrefixChars : List Char → List Char → Bool
  | _, [] => true
  | [], _ :: _ => false
  | c :: s, d :: p => c == d && hasPrefixChars s p

/-- Go `strings.Contains` on rune lists: some suffix of `s` starts with `sub`. -/
def containsChars : List Char → List Char → Bool
  | [], sub => hasPrefixChars [] sub
  | c :: s, sub => hasPrefixChars (c :: s) sub || containsChars s sub

/-- The rune loop of `strings.EqualFold`: same length, and at each position the
runes are equal or identified by simple folding. -/
def equalFoldChars (t : CaseTables) : List Char → List Char → Bool
  | [], [] => true
  | a :: s, b :: u => (a == b || t.foldEq a b) && equalFoldChars t s u
  | _, _ => false

/-- Go `strings.EqualFold`. -/
def EqualFold (t : CaseTables) (s u : String) : Bool :=
  equalFoldChars t s.data u.data

/-! ## `internal/model` -/

/-- Go `model.Project`. -/
structure Project where
  Name : String
  Path : String
  File : String
  deriving DecidableEq, Repr, Inhabited

/-- Go `model.ManagedProject`. -/
structure ManagedProject where
  Alias : String
  Project : Project
  deriving DecidableEq, Repr, Inhabited

/-- Go `model.ActionType`. -/
inductive ActionType where
  | ActionList
  | ActionStart
  | ActionStop
  | ActionStatus
  deriving DecidableEq, Repr

/-- Go `config.ManagedConfig`. -/
structure ManagedConfig where
  Projects : List ManagedProject
  deriving DecidableEq, Repr

/-! ## Lookup in the managed registry -/

/-- The loop condition of `FindManagedProject`:
`strings.EqualFold(p.Alias, alias) || strings.Contains(strings.ToLower(p.Alias), strings.ToLower(alias))`. -/
def aliasMatches (t : CaseTables) (p : ManagedProject) (query : String) : Bool :=
  EqualFold t p.Alias query || containsChars (ToLower t p.Alias) (ToLower t query)

/-- The `for _, p := range managedConfig.Projects` loop of `FindManagedProject`. -/
def findManagedLoop (t : CaseTables) : List ManagedProject → String → ManagedProject × Bool
  | [], _ => (⟨"", ⟨"", "", ""⟩⟩, false)
  | p :: rest, query =>
    if aliasMatches t p query then (p, true) else findManagedLoop t rest query

/-- Go `Manager.FindManagedProject`. -/
def FindManagedProject (t : CaseTables) (managedConfig : ManagedConfig) (query : String) :
    ManagedProject × Bool :=
  findManagedLoop t managedConfig.Projects query

/-! ## Errors, paths and the directory tree -/

/-- Go `error` values met by the manager: the sentinels of `path/filepath` and
`context`, errors of the operating system or of a command, and errors built by
`fmt.Errorf` with `%w` around a cause. -/
inductive GoError where
  | SkipDir
  | SkipAll
  | Canceled
  | DeadlineExceeded
  | errno (msg : String)
  | wrapped (msg : String) (cause : GoError)
  deriving DecidableEq, Repr

/-- A cleaned path, kept as the list of its elements: `filepath.Join` with an
entry name appends an element, `filepath.Dir` drops the last element and
`filepath.Base` returns it.  An absolute path starts with the empty element,
so `/srv/app` is `["", "srv", "app"]` and the root `/` is `[""]`; the empty
list is the path `.`. -/
abbrev Path := List String

/-- Go `filepath.Join(path, name)` for an entry name read from a directory. -/
def Join (path : Path) (name : String) : Path := path ++ [name]

/-- Go `filepath.Dir`. -/
def Dir (path : Path) : Path := path.dropLast

/-- Go `filepath.Base`: the last element; the base of the empty path is `"."`
and the base of the root `/` is `"/"`. -/
def Base (path : Path) : String :=
  match path.getLast? with
  | none => "."
  | some name => if name = "" then "/" else name

/-- The path as a string: its elements separated by `/`; `.` for the empty
path and `/` for the root. -/
def Path.render (path : Path) : String :=
  if path = [] then "." else if path = [""] then "/" else "/".intercalate path

/-- Go `os.FileInfo`, as far as the walk callback reads it. -/
structure FileInfo where
  Name : String
  IsDir : Bool
  deriving DecidableEq, Repr

/-- What lies at a path and what `os.Lstat` and `readDirNames` make of it: a
non-directory entry; a directory with its (sorted) entries; a directory whose
listing fails, with the entries that are in it all the same; a path whose
`Lstat` fails because nothing is there; an entry whose `Lstat` fails (its
directory cannot be searched) although `real` is there.  The name of a node is
the base of its path. -/
inductive Node where
  | file
  | dir (entries : List (String × Node))
  | unreadable (err : GoError) (entries : List (String × Node))
  | broken (err : GoError)
  | denied (err : GoError) (real : Node)
  deriving Repr

/-- The value `info.IsDir()` of the `Lstat` result at a node. -/
def Node.IsDir : Node → Bool
  | .dir _ => true
  | .unreadable _ _ => true
  | _ => false

/-- Go `filepath.WalkFunc`, with the state captured by the closure made explicit. -/
abbrev WalkFunc (σ : Type) := σ → Path → Option FileInfo → Option GoError → σ × Option GoError

mutual
/-- The `Lstat` of the caller followed by `filepath.walk`: when `Lstat` fails the
callback is handed the error with a nil `info`; a non-directory is handed to
the callback; a directory is listed, handed to the callback with the listing
error if any, and its entries are walked unless one of both errors is set. -/
def walk {σ : Type} (walkFn : WalkFunc σ) (path : Path) (node : Node) (st : σ) :
    σ × Option GoError :=
  match node with
  | .broken err => walkFn st path none (some err)
  | .denied err _ => walkFn st path none (some err)
  | .file => walkFn st path (some ⟨Base path, false⟩) none
  | .unreadable err _ => walkFn st path (some ⟨Base path, true⟩) (some err)
  | .dir entries =>
    match walkFn st path (some ⟨Base path, true⟩) none with
    | (st1, some err1) => (st1, some err1)
    | (st1, none) => walkNames walkFn path entries st1
/-- The `for _, name := range names` loop of `filepath.walk`: an error of an
entry stops the loop, except `SkipDir` from a directory or from an entry whose
`Lstat` failed. -/
def walkNames {σ : Type} (walkFn : WalkFunc σ) (path : Path) (entries : List (String × Node))
    (st : σ) : σ × Option GoError :=
  match entries with
  | [] => (st, none)
  | (name, .broken err) :: rest =>
    match walk walkFn (Join path name) (.broken err) st with
    | (st1, some e) =>
      if e ≠ GoError.SkipDir then (st1, some e) else walkNames walkFn path rest st1
    | (st1, none) => walkNames walkFn path rest st1
  | (name, .denied err real) :: rest =>
    match walk walkFn (Join path name) (.denied err real) st with
    | (st1, some e) =>
      if e ≠ GoError.SkipDir then (st1, some e) else walkNames walkFn path rest st1
    | (st1, none) => walkNames walkFn path rest st1
  | (name, node) :: rest =>
    match walk walkFn (Join path name) node st with
    | (st1, some e) =>
      if !node.IsDir || e ≠ GoError.SkipDir then (st1, some e)
      else walkNames walkFn path rest st1
    | (st1, none) => walkNames walkFn path rest st1
end

/-- Go `filepath.Walk`: `SkipDir` and `SkipAll` coming out of the root are turned into nil. -/
def Walk {σ : Type} (root : Path) (fs : Node) (walkFn : WalkFunc σ) (st : σ) :
    σ × Option GoError :=
  match walk walkFn root fs st with
  | (st1, some e) =>
    if e = GoError.SkipDir ∨ e = GoError.SkipAll then (st1, none) else (st1, some e)
  | (st1, none) => (st1, none)

/-! ## Discovery -/

/-- The test `strings.HasPrefix(name, ".") || strings.HasPrefix(name, "#")`. -/
def hiddenName (name : String) : Bool :=
  hasPrefixChars name.data ".".data || hasPrefixChars name.data "#".data

/-- The test `filename == "docker-compose.yml" || filename == "docker-compose.yaml"`. -/
def composeName (filename : String) : Bool :=
  filename == "docker-compose.yml" || filename == "docker-compose.yaml"

/-- The callback `FindProjects` hands to `filepath.Walk`; the state is the
`projects` slice it appends to.  A nil `info` only comes with an error. -/
def findProjectsFn : WalkFunc (List Project) := fun projects path info err =>
  match err, info with
  | some _, _ => (projects, none)
  | none, none => (projects, none)
  | none, some info =>
    if info.IsDir && hiddenName info.Name then (projects, some GoError.SkipDir)
    else if !info.IsDir && composeName info.Name then
      (projects ++ [⟨Base (Dir path), (Dir path).render, info.Name⟩], none)
    else (projects, none)

/-- Go `Manager.FindProjects` on the tree `fs` found at `rootPath`. -/
def FindProjects (fs : Node) (rootPath : Path) : List Project × Option GoError :=
  Walk rootPath fs findProjectsFn []

/-! ## Discovery, as the specification words it -/

mutual
/-- The non-directory entries at or beneath a node that `Lstat` and the
listings find, each with the names of the directories passed from the node
down to it (the node included when it is a directory) and with its own path.
Nothing is found behind a failing listing or a failing `Lstat`. -/
def filesAt (path : Path) : Node → List (List String × Path)
  | .file => [([], path)]
  | .dir entries => (filesBelow path entries).map (fun x => (Base path :: x.1, x.2))
  | .unreadable _ _ => []
  | .broken _ => []
  | .denied _ _ => []
/-- The non-directory entries beneath a directory with the given entries that
`Lstat` and the listings find, each with the names of the directories strictly
below that directory on the way. -/
def filesBelow (path : Path) : List (String × Node) → List (List String × Path)
  | [] => []
  | (name, node) :: rest => filesAt (Join path name) node ++ filesBelow path rest
end

/-- The Project the specification assigns to a compose file: name = base name of
the parent directory, path = the parent directory, file = the file name. -/
def projectOf (file : Path) : Project :=
  ⟨Base (Dir file), (Dir file).render, Base file⟩

/-- The file is named like a compose file and no directory on the way is hidden. -/
def qualifies (x : List String × Path) : Bool :=
  composeName (Base x.2) && x.1.all (fun d => !hiddenName d)

/-- The projects of the qualifying files, in the order of the enumeration. -/
def expectedProjects (files : List (List String × Path)) : List Project :=
  (files.filter qualifies).map (fun x => projectOf x.2)

/-- A non-directory entry lying in the tree: the names of the directories on
the way to it, its path, and whether the walk can get to it, that is whether
every listing and every `Lstat` on the way, its own included, succeeds. -/
structure LyingFile where
  dirs : List String
  path : Path
  reachable : Bool
  deriving DecidableEq, Repr

mutual
/-- Every non-directory entry lying at or beneath a node, those behind a failing
listing or a failing `Lstat` included; `reachable` says whether the node itself
has been reached.  The names in `dirs` start with the node when it is a
directory. -/
def everyFileAt (path : Path) (reachable : Bool) : Node → List LyingFile
  | .file => [⟨[], path, reachable⟩]
  | .dir entries =>
    (everyFileBelow path reachable entries).map (fun x => ⟨Base path :: x.dirs, x.path, x.reachable⟩)
  | .unreadable _ entries =>
    (everyFileBelow path false entries).map (fun x => ⟨Base path :: x.dirs, x.path, x.reachable⟩)
  | .broken _ => []
  | .denied _ real => everyFileAt path false real
/-- Every non-directory entry lying beneath a directory with the given entries;
the names in `dirs` are those of the directories strictly below it. -/
def everyFileBelow (path : Path) (reachable : Bool) : List (String × Node) → List LyingFile
  | [] => []
  | (name, node) :: rest =>
    everyFileAt (Join path name) reachable node ++ everyFileBelow path reachable rest
end

/-- The reachable files of an enumeration, as pairs of directory names and path. -/
def reachedFiles (files : List LyingFile) : List (List String × Path) :=
  (files.filter (fun x => x.reachable)).map (fun x => (x.dirs, x.path))

/-! ## The command executor -/

/-- One call `Execute(dir, command, args...)` of the `CommandExecutor`. -/
structure Invocation where
  dir : String
  command : String
  args : List String
  deriving DecidableEq, Repr

/-- The behaviour of a `CommandExecutor`: the combined output and the error of a
call, which may depend on the calls made before it. -/
abbrev Executor := List Invocation → Invocation → String × Option GoError

/-- The message `err.Error()`. -/
def GoError.Error : GoError → String
  | .SkipDir => "skip this directory"
  | .SkipAll => "skip everything and stop the walk"
  | .Canceled => "context canceled"
  | .DeadlineExceeded => "context deadline exceeded"
  | .errno msg => msg
  | .wrapped msg _ => msg

/-- Go `model.Result`; a nil `Error` is `none`. -/
structure Result where
  Project : Project
  Success : Bool
  Message : String
  Error : Option GoError
  deriving DecidableEq, Repr

/-- The call made by `StartProject`: `docker compose up -d` in the project's path. -/
def upInvocation (project : Project) : Invocation :=
  ⟨project.Path, "docker", ["compose", "up", "-d"]⟩

/-- The call made by `StopProject`: `docker compose down` in the project's path. -/
def downInvocation (project : Project) : Invocation :=
  ⟨project.Path, "docker", ["compose", "down"]⟩

/-- Go `Manager.StartProject`, with the calls made so far threaded through. -/
def StartProject (exec : Executor) (log : List Invocation) (project : Project) :
    Result × List Invocation :=
  match exec log (upInvocation project) with
  | (output, some err) =>
    (⟨project, false, "",
      some (.wrapped ("error starting " ++ project.Name ++ ": " ++ err.Error ++ ": " ++ output) err)⟩,
      log ++ [upInvocation project])
  | (_, none) =>
    (⟨project, true, "Successfully started " ++ project.Name, none⟩,
      log ++ [upInvocation project])

/-- Go `Manager.StopProject`, with the calls made so far threaded through. -/
def StopProject (exec : Executor) (log : List Invocation) (project : Project) :
    Result × List Invocation :=
  match exec log (downInvocation project) with
  | (output, some err) =>
    (⟨project, false, "",
      some (.wrapped ("error stopping " ++ project.Name ++ ": " ++ err.Error ++ ": " ++ output) err)⟩,
      log ++ [downInvocation project])
  | (_, none) =>
    (⟨project, true, "Successfully stopped " ++ project.Name, none⟩,
      log ++ [downInvocation project])

/-! ## Bulk operations -/

/-- The body of the goroutine started for one project by `ManageAllProjects`:
`ctxErr` is `ctx.Err()` at the moment of the `select`, non-nil exactly when
`ctx.Done()` is closed.  For an action other than start and stop the zero
`Result` is sent. -/
def manageUnit (exec : Executor) (ctxErr : Option GoError) (action : ActionType)
    (p : Project) (log : List Invocation) : Result × List Invocation :=
  match ctxErr with
  | some e => (⟨p, false, "", some e⟩, log)
  | none =>
    match action with
    | .ActionStart => StartProject exec log p
    | .ActionStop => StopProject exec log p
    | _ => (⟨⟨"", "", ""⟩, false, "", none⟩, log)

/-- The goroutines of `ManageAllProjects` under a scheduler: `pending` holds the
projects whose goroutine has not run yet, `n` is their number; at each step the
scheduler picks one of them (`sched`, read modulo the number pending), its body
runs, seeing the context as it is after `results.length` completions, and its
Result is sent on the channel, whose content so far is `results`.  A body runs
as one step, so the calls reach the executor in the order of completion;
overlapping calls to an executor with state are outside this model. -/
def runGoroutines (exec : Executor) (ctx : Nat → Option GoError) (action : ActionType) :
    Nat → List Nat → List Project → List Invocation → List Result →
    List Result × List Invocation
  | 0, _, _, log, results => (results, log)
  | _ + 1, _, [], log, results => (results, log)
  | n + 1, sched, p0 :: pending, log, results =>
    let i := sched.headD 0 % (p0 :: pending).length
    let p := (p0 :: pending).getD i p0
    let out := manageUnit exec (ctx results.length) action p log
    runGoroutines exec ctx action n sched.tail ((p0 :: pending).eraseIdx i) out.2
      (results ++ [out.1])

/-- Go `Manager.ManageAllProjects`: nil for an empty input, otherwise the Results in
the order in which the goroutines sent them, with the calls made. -/
def ManageAllProjects (exec : Executor) (ctx : Nat → Option GoError) (sched : List Nat)
    (log : List Invocation) (projects : List Project) (action : ActionType) :
    List Result × List Invocation :=
  if projects.length = 0 then ([], log)
  else runGoroutines exec ctx action projects.length sched projects log []

/-- The goroutine bodies run one after the other in a given order: what
`runGoroutines` amounts to once the scheduler has made its picks. -/
def runInOrder (exec : Executor) (ctx : Nat → Option GoError) (action : ActionType) :
    List Project → List Invocation → List Result → List Result × List Invocation
  | [], log, results => (results, log)
  | p :: rest, log, results =>
    runInOrder exec ctx action rest (manageUnit exec (ctx results.length) action p log).2
      (results ++ [(manageUnit exec (ctx results.length) action p log).1])

/-! ## Status of a project -/

/-- Go `unicode.IsSpace`: the Latin-1 spaces and the runes with property White_Space. -/
def isSpace (c : Char) : Bool :=
  c.toNat == 9 || c.toNat == 10 || c.toNat == 11 || c.toNat == 12 || c.toNat == 13 ||
  c.toNat == 32 || c.toNat == 0x85 || c.toNat == 0xA0 || c.toNat == 0x1680 ||
  (0x2000 ≤ c.toNat && c.toNat ≤ 0x200A) || c.toNat == 0x2028 || c.toNat == 0x2029 ||
  c.toNat == 0x202F || c.toNat == 0x205F || c.toNat == 0x3000

/-- Go `strings.TrimSpace`: leading and trailing white space removed. -/
def TrimSpace (s : String) : String :=
  ⟨((s.data.dropWhile isSpace).reverse.dropWhile isSpace).reverse⟩

/-- Go `strings.Split(s, "\n")` on rune lists; the empty string gives one empty field. -/
def splitLines : List Char → List (List Char)
  | [] => [[]]
  | c :: s =>
    if c.toNat = 10 then [] :: splitLines s
    else
      match splitLines s with
      | [] => [[c]]
      | l :: ls => (c :: l) :: ls

/-- Go `strings.Split(s, "\n")`. -/
def Split (s : String) : List String :=
  (splitLines s.data).map String.mk

/-- The test `regexp.MustCompile("(?i)up|running").MatchString(status)`: the status has
`up` or `running` as a substring, letters compared without case.  None of the
letters of the pattern folds to a rune outside ASCII. -/
def matchesUpOrRunning (status : String) : Bool :=
  containsChars (status.data.map Char.toLower) "up".data ||
  containsChars (status.data.map Char.toLower) "running".data

/-- The assignment `m[k] = v` on a Go map kept as a list of pairs with distinct keys. -/
def mapSet (m : List (String × String)) (k v : String) : List (String × String) :=
  m.filter (fun e => !(e.1 == k)) ++ [(k, v)]

/-- The first call of `CheckProjectStatus`: `docker compose ps -a --format json`. -/
def psAllInvocation (project : Project) : Invocation :=
  ⟨project.Path, "docker", ["compose", "ps", "-a", "--format", "json"]⟩

/-- The second call of `CheckProjectStatus`: `docker compose config --services`. -/
def servicesInvocation (project : Project) : Invocation :=
  ⟨project.Path, "docker", ["compose", "config", "--services"]⟩

/-- The call made for one service: `docker compose ps <service> --format` with
the status template. -/
def statusInvocation (project : Project) (service : String) : Invocation :=
  ⟨project.Path, "docker", ["compose", "ps", service, "--format", "\x7b\x7b.Status\x7d\x7d"]⟩

/-- The `for _, service := range services` loop of `CheckProjectStatus`, on the
calls made so far, the map `serviceStatus` and the flag `isRunning`. -/
def statusLoop (exec : Executor) (project : Project) :
    List String → List Invocation → List (String × String) → Bool →
    Bool × List (String × String) × List Invocation
  | [], log, serviceStatus, isRunning => (isRunning, serviceStatus, log)
  | service :: rest, log, serviceStatus, isRunning =>
    if service = "" then statusLoop exec project rest log serviceStatus isRunning
    else
      match exec log (statusInvocation project service) with
      | (statusOutput, err) =>
        if err ≠ none ∨ TrimSpace statusOutput = "" then
          statusLoop exec project rest (log ++ [statusInvocation project service])
            (mapSet serviceStatus service "not running") isRunning
        else
          statusLoop exec project rest (log ++ [statusInvocation project service])
            (mapSet serviceStatus service (TrimSpace statusOutput))
            (if matchesUpOrRunning (TrimSpace statusOutput) then true else isRunning)

/-- Go `Manager.CheckProjectStatus`, with the calls made so far threaded through;
a nil map is the empty list. -/
def CheckProjectStatus (exec : Executor) (log : List Invocation) (project : Project) :
    (Bool × List (String × String) × Option GoError) × List Invocation :=
  match exec log (psAllInvocation project) with
  | (_, some err) =>
    ((false, [], some (.wrapped ("error checking status: " ++ err.Error) err)),
      log ++ [psAllInvocation project])
  | (output, none) =>
    if (TrimSpace output).length = 0 ∨ output = "[]" then
      ((false, [], none), log ++ [psAllInvocation project])
    else
      match exec (log ++ [psAllInvocation project]) (servicesInvocation project) with
      | (_, some err) =>
        ((false, [], some (.wrapped ("error getting services: " ++ err.Error) err)),
          log ++ [psAllInvocation project] ++ [servicesInvocation project])
      | (servicesOutput, none) =>
        if (Split (TrimSpace servicesOutput)).length = 0 ∨
            ((Split (TrimSpace servicesOutput)).length = 1 ∧
              (Split (TrimSpace servicesOutput)).head? = some "") then
          ((false, [], none), log ++ [psAllInvocation project] ++ [servicesInvocation project])
        else
          match statusLoop exec project (Split (TrimSpace servicesOutput))
              (log ++ [psAllInvocation project] ++ [servicesInvocation project]) [] false with
          | (isRunning, serviceStatus, log3) => ((isRunning, serviceStatus, none), log3)

/-- The status queries made by the service loop, each with the name of the
service and the answer of the executor, in the order of the calls. -/
def statusQueries (exec : Executor) (project : Project) :
    List String → List Invocation → List (String × String × Option GoError)
  | [], _ => []
  | service :: rest, log =>
    if service = "" then statusQueries exec project rest log
    else
      (service, exec log (statusInvocation project service)) ::
        statusQueries exec project rest (log ++ [statusInvocation project service])

/-- An executor answering from a table keyed by the arguments of the call; a
call that is not in the table succeeds with an empty output. -/
def scripted (table : List (List String × String × Option GoError)) : Executor :=
  fun _ inv => (table.lookup inv.args).getD ("", none)

/-! ## The project registry and the managed registry -/

/-- Go `Manager.FindProject`: the first project whose lowered name contains the
lowered query.  The slice is only read. -/
def FindProject (t : CaseTables) : List Project → String → Project × Bool
  | [], _ => (⟨"", "", ""⟩, false)
  | project :: rest, projectName =>
    if containsChars (ToLower t project.Name) (ToLower t projectName) then (project, true)
    else FindProject t rest projectName

/-- The first loop of `AddManagedProject`: some entry has `p.Alias == alias`. -/
def aliasTaken : List ManagedProject → String → Bool
  | [], _ => false
  | p :: rest, aliasName => if p.Alias = aliasName then true else aliasTaken rest aliasName

/-- Go `Manager.AddManagedProject`: the configuration after the call and the error. -/
def AddManagedProject (managedConfig : ManagedConfig) (project : Project) (aliasName : String) :
    ManagedConfig × Option GoError :=
  if aliasTaken managedConfig.Projects aliasName then
    (managedConfig,
      some (.errno ("a project with alias \x27" ++ aliasName ++ "\x27 already exists")))
  else (⟨managedConfig.Projects ++ [⟨aliasName, project⟩]⟩, none)

/-- The loop of `RemoveManagedProject` over `all`, at index `i` with the entries
still to visit: at the first entry with `p.Alias == alias` the new slice is
`append(all[:i], all[i+1:]...)`. -/
def removeLoop (all : List ManagedProject) (aliasName : String) :
    List ManagedProject → Nat → Option (List ManagedProject)
  | [], _ => none
  | p :: rest, i =>
    if p.Alias = aliasName then some (all.take i ++ all.drop (i + 1))
    else removeLoop all aliasName rest (i + 1)

/-- Go `Manager.RemoveManagedProject`: the configuration after the call and the error. -/
def RemoveManagedProject (managedConfig : ManagedConfig) (aliasName : String) :
    ManagedConfig × Option GoError :=
  match removeLoop managedConfig.Projects aliasName managedConfig.Projects 0 with
  | some projects => (⟨projects⟩, none)
  | none =>
    (managedConfig, some (.errno ("no project found with alias \x27" ++ aliasName ++ "\x27")))

/-- A call on the managed registry. -/
inductive RegistryCall where
  | add (project : Project) (aliasName : String)
  | remove (aliasName : String)
  deriving DecidableEq, Repr

/-- The configuration left by one call, whether it succeeds or fails. -/
def RegistryCall.run (managedConfig : ManagedConfig) : RegistryCall → ManagedConfig
  | .add project aliasName => (AddManagedProject managedConfig project aliasName).1
  | .remove aliasName => (RemoveManagedProject managedConfig aliasName).1

/-- The configuration left by a sequence of calls. -/
def runCalls : ManagedConfig → List RegistryCall → ManagedConfig
  | managedConfig, [] => managedConfig
  | managedConfig, call :: rest => runCalls (call.run managedConfig) rest

/-- The text stored by the service loop for the answer of a status query:
`"not running"` when the query fails or its output is blank, the trimmed
output otherwise. -/
def storedStatus (answer : String × Option GoError) : String :=
  if answer.2 ≠ none ∨ TrimSpace answer.1 = "" then "not running" else TrimSpace answer.1

/-- A project used in concrete runs. -/
def shop : Project := ⟨"shop", "/srv/shop", "docker-compose.yml"⟩

/-- An executor for `shop`: two services are listed, with a blank line between
them; the status query of `api` fails and `db` answers `Up 2 hours`. -/
def shopExecutor : Executor :=
  scripted
    [(["compose", "ps", "-a", "--format", "json"], "[\x7b\x7d]", none),
     (["compose", "config", "--services"], "api\n\ndb\n", none),
     (["compose", "ps", "api", "--format", "\x7b\x7b.Status\x7d\x7d"], "no such service",
        some (.errno "exit status 1")),
     (["compose", "ps", "db", "--format", "\x7b\x7b.Status\x7d\x7d"], " Up 2 hours\n", none)]

/-! # Theorems -/

/-! ## Lemmas on the lookup loop -/

theorem findManagedLoop_none (t : CaseTables) (l : List ManagedProject) (q : String)
    (h : ∀ x ∈ l, aliasMatches t x q = false) :
    findManagedLoop t l q = (⟨"", ⟨"", "", ""⟩⟩, false) := by
  induction l with
  | nil => rfl
  | cons a l ih =>
    have ha : aliasMatches t a q = false := h a (List.mem_cons_self _ _)
    simp only [findManagedLoop, ha]
    exact ih (fun x hx => h x (List.mem_cons_of_mem _ hx))

theorem findManagedLoop_first (t : CaseTables) (pre post : List ManagedProject)
    (e : ManagedProject) (q : String)
    (hpre : ∀ x ∈ pre, aliasMatches t x q = false) (he : aliasMatches t e q = true) :
    findManagedLoop t (pre ++ e :: post) q = (e, true) := by
  induction pre with
  | nil => simp [findManagedLoop, he]
  | cons a pre ih =>
    have ha : aliasMatches t a q = false := hpre a (List.mem_cons_self _ _)
    simp only [List.cons_append, findManagedLoop, ha]
    exact ih (fun x hx => hpre x (List.mem_cons_of_mem _ hx))

/-! ## C1 -/

/-- C1, as stated, fails: with aliases `["web-app", "web"]` and query `"web"` an
entry whose alias equals the query exists, yet the entry returned is
`"web-app"`, whose alias is not equal to the query under case folding. -/
theorem C1_exact_precedence_fails :
    (∃ e ∈ [(⟨"web-app", ⟨"web-app", "/srv/web-app", "docker-compose.yml"⟩⟩ : ManagedProject),
            ⟨"web", ⟨"web", "/srv/web", "docker-compose.yml"⟩⟩],
        EqualFold asciiCase e.Alias "web" = true) ∧
    FindManagedProject asciiCase
      ⟨[⟨"web-app", ⟨"web-app", "/srv/web-app", "docker-compose.yml"⟩⟩,
        ⟨"web", ⟨"web", "/srv/web", "docker-compose.yml"⟩⟩]⟩ "web"
      = (⟨"web-app", ⟨"web-app", "/srv/web-app", "docker-compose.yml"⟩⟩, true) ∧
    EqualFold asciiCase "web-app" "web" = false := by
  refine ⟨⟨⟨"web", ⟨"web", "/srv/web", "docker-compose.yml"⟩⟩, by decide, by decide⟩, ?_, ?_⟩
  · decide
  · decide

/-- C1, amended: `FindManagedProject` returns the first entry, in list order,
whose alias equals the query under case folding or contains it as a
case-insensitive substring.  Hence an entry equal to the query is returned
when no earlier entry matches, and `found = false` when no entry matches. -/
theorem C1_first_match_wins (t : CaseTables) (q : String) :
    (∀ (pre post : List ManagedProject) (e : ManagedProject),
        (∀ x ∈ pre, aliasMatches t x q = false) → aliasMatches t e q = true →
        FindManagedProject t ⟨pre ++ e :: post⟩ q = (e, true)) ∧
    (∀ (pre post : List ManagedProject) (e : ManagedProject),
        (∀ x ∈ pre, aliasMatches t x q = false) → EqualFold t e.Alias q = true →
        FindManagedProject t ⟨pre ++ e :: post⟩ q = (e, true)) ∧
    (∀ cfg : ManagedConfig, (∀ x ∈ cfg.Projects, aliasMatches t x q = false) →
        FindManagedProject t cfg q = (⟨"", ⟨"", "", ""⟩⟩, false)) := by
  refine ⟨?_, ?_, ?_⟩
  · intro pre post e hpre he
    exact findManagedLoop_first t pre post e q hpre he
  · intro pre post e hpre he
    exact findManagedLoop_first t pre post e q hpre (by simp [aliasMatches, he])
  · intro cfg h
    exact findManagedLoop_none t cfg.Projects q h

/-- C1 witness: the amended statement at aliases `["db", "web-app", "web"]` and
query `"web"`: the first matching entry, `"web-app"`, is returned. -/
theorem C1_first_match_wins_witness :
    FindManagedProject asciiCase
      ⟨[⟨"db", ⟨"db", "/srv/db", "docker-compose.yml"⟩⟩] ++
        ⟨"web-app", ⟨"web-app", "/srv/web-app", "docker-compose.yml"⟩⟩ ::
        [⟨"web", ⟨"web", "/srv/web", "docker-compose.yml"⟩⟩]⟩ "web"
      = (⟨"web-app", ⟨"web-app", "/srv/web-app", "docker-compose.yml"⟩⟩, true) :=
  (C1_first_match_wins asciiCase "web").1
    [⟨"db", ⟨"db", "/srv/db", "docker-compose.yml"⟩⟩]
    [⟨"web", ⟨"web", "/srv/web", "docker-compose.yml"⟩⟩]
    ⟨"web-app", ⟨"web-app", "/srv/web-app", "docker-compose.yml"⟩⟩
    (by decide) (by decide)

/-! ## Lemmas on the walk -/

theorem expectedProjects_append (a b : List (List String × Path)) :
    expectedProjects (a ++ b) = expectedProjects a ++ expectedProjects b := by
  simp [expectedProjects]

theorem expectedProjects_cons_hidden (d : String) (h : hiddenName d = true)
    (l : List (List String × Path)) :
    expectedProjects (l.map (fun x => (d :: x.1, x.2))) = [] := by
  induction l with
  | nil => rfl
  | cons a l ih =>
    simp only [expectedProjects, List.map_cons, List.filter_cons, qualifies, List.all_cons, h,
      Bool.not_true, Bool.false_and, Bool.and_false] at ih ⊢
    simpa using ih

theorem expectedProjects_cons_visible (d : String) (h : hiddenName d = false)
    (l : List (List String × Path)) :
    expectedProjects (l.map (fun x => (d :: x.1, x.2))) = expectedProjects l := by
  induction l with
  | nil => rfl
  | cons a l ih =>
    simp only [expectedProjects, List.map_cons, List.filter_cons, qualifies, List.all_cons, h,
      Bool.not_false, Bool.true_and] at ih ⊢
    split <;> simp [ih]

mutual
theorem walk_findProjectsFn (path : Path) (node : Node) (acc : List Project) :
    walk findProjectsFn path node acc =
      (acc ++ expectedProjects (filesAt path node),
        match node with
        | .dir _ => if hiddenName (Base path) then some GoError.SkipDir else none
        | _ => none) := by
  match node with
  | .broken err => simp [walk, findProjectsFn, filesAt, expectedProjects, Node.IsDir]
  | .denied err real => simp [walk, findProjectsFn, filesAt, expectedProjects, Node.IsDir]
  | .unreadable err hidden =>
    simp [walk, findProjectsFn, filesAt, expectedProjects]
  | .file =>
    simp only [walk, findProjectsFn, filesAt, expectedProjects, Node.IsDir, Bool.false_and,
      Bool.not_false, Bool.true_and, List.filter_cons, qualifies, List.all_nil, Bool.and_true]
    cases h : composeName (Base path) <;> simp [projectOf]
  | .dir entries =>
    cases h : hiddenName (Base path)
    · simp only [walk, findProjectsFn, h, Node.IsDir, Bool.and_false, Bool.and_true,
        Bool.not_true, Bool.false_and, filesAt]
      simp [walkNames_findProjectsFn path entries acc, expectedProjects_cons_visible _ h]
    · simp [walk, findProjectsFn, h, Node.IsDir, filesAt, expectedProjects_cons_hidden _ h]
theorem walkNames_findProjectsFn (path : Path) (entries : List (String × Node))
    (acc : List Project) :
    walkNames findProjectsFn path entries acc =
      (acc ++ expectedProjects (filesBelow path entries), none) := by
  match entries with
  | [] => simp [walkNames, filesBelow, expectedProjects]
  | (name, node) :: rest =>
    have hw := walk_findProjectsFn (Join path name) node acc
    have hr := fun a => walkNames_findProjectsFn path rest a
    cases node with
    | broken err =>
      simp only [walkNames, hw, Node.IsDir, Bool.false_and, filesBelow, filesAt]
      simp [hr, expectedProjects]
    | denied err real =>
      simp only [walkNames, hw, Node.IsDir, Bool.false_and, filesBelow, filesAt]
      simp [hr, expectedProjects]
    | file =>
      simp only [walkNames, hw, Node.IsDir, Bool.false_and, filesBelow]
      simp [hr, expectedProjects_append]
    | unreadable err hidden =>
      simp only [walkNames, hw, Node.IsDir, Bool.true_and, filesBelow]
      simp [hr, expectedProjects_append]
    | dir entries =>
      simp only [walkNames, hw, Node.IsDir, Bool.true_and, filesBelow]
      cases h : hiddenName (Base (Join path name)) <;>
        simp [hr, expectedProjects_append]
end

theorem FindProjects_eq (fs : Node) (rootPath : Path) :
    FindProjects fs rootPath = (expectedProjects (filesAt rootPath fs), none) := by
  simp only [FindProjects, Walk, walk_findProjectsFn, List.nil_append]
  cases fs with
  | dir entries => cases h : hiddenName (Base rootPath) <;> simp
  | file => rfl
  | unreadable err hidden => rfl
  | broken err => rfl
  | denied err real => rfl

theorem reachedFiles_append (a b : List LyingFile) :
    reachedFiles (a ++ b) = reachedFiles a ++ reachedFiles b := by
  simp [reachedFiles]

theorem reachedFiles_cons (d : String) (l : List LyingFile) :
    reachedFiles (l.map (fun x => ⟨d :: x.dirs, x.path, x.reachable⟩)) =
      (reachedFiles l).map (fun x => (d :: x.1, x.2)) := by
  induction l with
  | nil => rfl
  | cons a l ih =>
    simp only [reachedFiles, List.map_cons, List.filter_cons] at ih ⊢
    split <;> simp [ih]

mutual
theorem reachedFiles_everyFileAt_unreached (path : Path) (node : Node) :
    reachedFiles (everyFileAt path false node) = [] := by
  match node with
  | .file => rfl
  | .broken err => rfl
  | .denied err real =>
    simp only [everyFileAt]
    exact reachedFiles_everyFileAt_unreached path real
  | .dir entries =>
    simp only [everyFileAt, reachedFiles_cons,
      reachedFiles_everyFileBelow_unreached path entries, List.map_nil]
  | .unreadable err entries =>
    simp only [everyFileAt, reachedFiles_cons,
      reachedFiles_everyFileBelow_unreached path entries, List.map_nil]
theorem reachedFiles_everyFileBelow_unreached (path : Path) (entries : List (String × Node)) :
    reachedFiles (everyFileBelow path false entries) = [] := by
  match entries with
  | [] => rfl
  | (name, node) :: rest =>
    simp only [everyFileBelow, reachedFiles_append,
      reachedFiles_everyFileAt_unreached (Join path name) node,
      reachedFiles_everyFileBelow_unreached path rest, List.append_nil]
end

mutual
theorem reachedFiles_everyFileAt (path : Path) (node : Node) :
    reachedFiles (everyFileAt path true node) = filesAt path node := by
  match node with
  | .file => rfl
  | .broken err => rfl
  | .denied err real =>
    simp only [everyFileAt, filesAt]
    exact reachedFiles_everyFileAt_unreached path real
  | .dir entries =>
    simp only [everyFileAt, filesAt, reachedFiles_cons, reachedFiles_everyFileBelow path entries]
  | .unreadable err entries =>
    simp only [everyFileAt, filesAt, reachedFiles_cons,
      reachedFiles_everyFileBelow_unreached path entries, List.map_nil]
theorem reachedFiles_everyFileBelow (path : Path) (entries : List (String × Node)) :
    reachedFiles (everyFileBelow path true entries) = filesBelow path entries := by
  match entries with
  | [] => rfl
  | (name, node) :: rest =>
    simp only [everyFileBelow, filesBelow, reachedFiles_append,
      reachedFiles_everyFileAt (Join path name) node, reachedFiles_everyFileBelow path rest]
end

/-! ## C2 -/

/-- C2, the code at the failing input: for a root path at which nothing exists,
so that `Lstat` fails, `FindProjects` returns no project and a nil error, where
the claim requires an error. -/
theorem C2_missing_root_returns_nil_error :
    FindProjects (.broken (.errno "lstat /nonexistent: no such file or directory"))
        ["", "nonexistent"] = ([], none) := by
  decide

/-! ## C3 -/

theorem expectedProjects_reachedFiles (l : List LyingFile) :
    expectedProjects (reachedFiles l) =
      (l.filter (fun x => x.reachable && composeName (Base x.path) &&
          x.dirs.all (fun d => !hiddenName d))).map
        (fun x => (⟨Base (Dir x.path), (Dir x.path).render, Base x.path⟩ : Project)) := by
  induction l with
  | nil => rfl
  | cons a l ih =>
    simp only [expectedProjects, reachedFiles, List.filter_cons] at ih ⊢
    cases hr : a.reachable
    · simpa using ih
    · simp only [if_true, List.map_cons, List.filter_cons, qualifies, Bool.true_and]
      split
      · simp only [List.map_cons, projectOf]
        simp only [projectOf] at ih
        rw [ih]
      · exact ih

/-- C3, as stated, fails, in two ways.  Under a root whose own base name is
`.config` (or `.`) the walk is pruned at the root and nothing is reported,
although `app1/docker-compose.yml` and `app3/docker-compose.yaml` lie beneath
it with no hidden directory strictly below the root on the way.  And under
`/srv` the file `nox/docker-compose.yml`, whose `Lstat` fails because `nox`
cannot be searched, lies beneath the root with no hidden directory on the way
and is not reported. -/
theorem C3_unreported_compose_files :
    FindProjects
      (.dir [(".hidden", .dir [("app2", .dir [("docker-compose.yml", .file)])]),
             ("app1", .dir [("docker-compose.yml", .file)]),
             ("app3", .dir [("docker-compose.yaml", .file)])])
      ["", "home", ".config"] = ([], none) ∧
    FindProjects
      (.dir [(".hidden", .dir [("app2", .dir [("docker-compose.yml", .file)])]),
             ("app1", .dir [("docker-compose.yml", .file)]),
             ("app3", .dir [("docker-compose.yaml", .file)])])
      ["."] = ([], none) ∧
    ((everyFileBelow ["", "home", ".config"] true
        [(".hidden", .dir [("app2", .dir [("docker-compose.yml", .file)])]),
         ("app1", .dir [("docker-compose.yml", .file)]),
         ("app3", .dir [("docker-compose.yaml", .file)])]).filter
        (fun x => composeName (Base x.path) && x.dirs.all (fun d => !hiddenName d))).map
        (fun x => (x.path.render, x.reachable))
      = [("/home/.config/app1/docker-compose.yml", true),
         ("/home/.config/app3/docker-compose.yaml", true)] ∧
    FindProjects
      (.dir [("app1", .dir [("docker-compose.yml", .file)]),
             ("nox", .dir [("docker-compose.yml",
                .denied (.errno "lstat /srv/nox/docker-compose.yml: permission denied") .file)])])
      ["", "srv"] = ([⟨"app1", "/srv/app1", "docker-compose.yml"⟩], none) ∧
    ((everyFileBelow ["", "srv"] true
        [("app1", .dir [("docker-compose.yml", .file)]),
         ("nox", .dir [("docker-compose.yml",
            .denied (.errno "lstat /srv/nox/docker-compose.yml: permission denied") .file)])]).filter
        (fun x => composeName (Base x.path) && x.dirs.all (fun d => !hiddenName d))).map
        (fun x => (x.path.render, x.reachable))
      = [("/srv/app1/docker-compose.yml", true), ("/srv/nox/docker-compose.yml", false)] := by
  refine ⟨?_, ?_, ?_, ?_, ?_⟩ <;> decide

/-- C3, amended: when the root is a readable directory whose own base name does
not start with `.` or `#`, `FindProjects` returns no error and exactly one
Project for each non-directory entry named `docker-compose.yml` or
`docker-compose.yaml` lying beneath the root that the walk can reach (every
listing and every `Lstat` on the way to it, its own included, succeeds) with no
directory strictly below the root on the way whose name starts with `.` or
`#`; the Project has name = base name of the parent directory, path = the
parent directory, file = the name of the entry.  Files behind a failing
listing or a failing `Lstat` are not reported. -/
theorem C3_discovery_complete (rootPath : Path) (entries : List (String × Node))
    (hroot : hiddenName (Base rootPath) = false) :
    FindProjects (.dir entries) rootPath =
      (((everyFileBelow rootPath true entries).filter
          (fun x => x.reachable && composeName (Base x.path) &&
            x.dirs.all (fun d => !hiddenName d))).map
          (fun x => (⟨Base (Dir x.path), (Dir x.path).render, Base x.path⟩ : Project)), none) := by
  rw [FindProjects_eq]
  simp only [filesAt, expectedProjects_cons_visible _ hroot]
  rw [← reachedFiles_everyFileBelow, expectedProjects_reachedFiles]

/-- C3 witness: under `/srv`, `app1` holds a compose file, `.hidden/app2` is
pruned, `app3` holds both variants, `nox/docker-compose.yml` cannot be reached
and `locked` cannot be listed: `app1` is reported once and `app3` twice.
Without `app3/docker-compose.yml`, `nox` and `locked` the result is exactly
`app1` and `app3`. -/
theorem C3_discovery_complete_witness :
    hiddenName (Base ["", "srv"]) = false ∧
    FindProjects
      (.dir [(".hidden", .dir [("app2", .dir [("docker-compose.yml", .file)])]),
             ("app1", .dir [("docker-compose.yml", .file)]),
             ("app3", .dir [("docker-compose.yaml", .file), ("docker-compose.yml", .file)]),
             ("locked", .unreadable (.errno "open /srv/locked: permission denied")
                [("docker-compose.yml", .file)]),
             ("nox", .dir [("docker-compose.yml",
                .denied (.errno "lstat /srv/nox/docker-compose.yml: permission denied") .file)])])
      ["", "srv"] =
      ([⟨"app1", "/srv/app1", "docker-compose.yml"⟩,
        ⟨"app3", "/srv/app3", "docker-compose.yaml"⟩,
        ⟨"app3", "/srv/app3", "docker-compose.yml"⟩], none) ∧
    FindProjects
      (.dir [(".hidden", .dir [("app2", .dir [("docker-compose.yml", .file)])]),
             ("app1", .dir [("docker-compose.yml", .file)]),
             ("app3", .dir [("docker-compose.yaml", .file)])])
      ["", "srv"] =
      ([⟨"app1", "/srv/app1", "docker-compose.yml"⟩,
        ⟨"app3", "/srv/app3", "docker-compose.yaml"⟩], none) :=
  ⟨by decide, (C3_discovery_complete ["", "srv"] _ (by decide)).trans (by decide),
    (C3_discovery_complete ["", "srv"] _ (by decide)).trans (by decide)⟩

/-! ## C4 -/

/-- C4: every Project returned by `FindProjects` is the Project of a
non-directory entry at or beneath the root whose name is `docker-compose.yml`
or `docker-compose.yaml`, and no directory from the root down to that entry,
the root included, has a name starting with `.` or `#`. -/
theorem C4_discovery_sound (fs : Node) (rootPath : Path) (p : Project)
    (hp : p ∈ (FindProjects fs rootPath).1) :
    ∃ x ∈ filesAt rootPath fs,
      (Base x.2 = "docker-compose.yml" ∨ Base x.2 = "docker-compose.yaml") ∧
      (∀ d ∈ x.1, hiddenName d = false) ∧
      p = ⟨Base (Dir x.2), (Dir x.2).render, Base x.2⟩ := by
  rw [FindProjects_eq] at hp
  simp only [expectedProjects, List.mem_map, List.mem_filter] at hp
  obtain ⟨x, ⟨hx, hq⟩, rfl⟩ := hp
  simp only [qualifies, Bool.and_eq_true, List.all_eq_true, Bool.not_eq_true', composeName,
    Bool.or_eq_true, beq_iff_eq] at hq
  exact ⟨x, hx, hq.1, hq.2, rfl⟩

/-- C4 witness: the Project of `/srv/app1/docker-compose.yml`. -/
theorem C4_discovery_sound_witness :
    ∃ x ∈ filesAt ["", "srv"]
        (.dir [(".hidden", .dir [("app2", .dir [("docker-compose.yml", .file)])]),
               ("app1", .dir [("docker-compose.yml", .file), ("README", .file)])]),
      (Base x.2 = "docker-compose.yml" ∨ Base x.2 = "docker-compose.yaml") ∧
      (∀ d ∈ x.1, hiddenName d = false) ∧
      (⟨"app1", "/srv/app1", "docker-compose.yml"⟩ : Project)
        = ⟨Base (Dir x.2), (Dir x.2).render, Base x.2⟩ :=
  C4_discovery_sound
    (.dir [(".hidden", .dir [("app2", .dir [("docker-compose.yml", .file)])]),
           ("app1", .dir [("docker-compose.yml", .file), ("README", .file)])])
    ["", "srv"] ⟨"app1", "/srv/app1", "docker-compose.yml"⟩ (by decide)

/-! ## Lemmas on the bulk operation -/

theorem getD_cons_eraseIdx_perm (l : List Project) (d : Project) (i : Nat) (h : i < l.length) :
    (l.getD i d :: l.eraseIdx i).Perm l := by
  induction l generalizing i with
  | nil => simp at h
  | cons a l ih =>
    cases i with
    | zero => simp
    | succ i =>
      have hi : i < l.length := by simpa using h
      simp only [List.getD_cons_succ, List.eraseIdx_cons_succ]
      exact (List.Perm.swap a (l.getD i d) (l.eraseIdx i)).trans ((ih i hi).cons a)

theorem runGoroutines_eq_runInOrder (exec : Executor) (ctx : Nat → Option GoError)
    (action : ActionType) (n : Nat) :
    ∀ (sched : List Nat) (pending : List Project) (log : List Invocation)
      (results : List Result), pending.length = n →
      ∃ order : List Project, order.Perm pending ∧
        runGoroutines exec ctx action n sched pending log results =
          runInOrder exec ctx action order log results := by
  induction n with
  | zero =>
    intro sched pending log results h
    have hp : pending = [] := List.length_eq_zero.mp h
    subst hp
    exact ⟨[], List.Perm.refl _, by simp [runGoroutines, runInOrder]⟩
  | succ n ih =>
    intro sched pending log results h
    cases pending with
    | nil => simp at h
    | cons p0 pending =>
      have hlt : sched.headD 0 % (p0 :: pending).length < (p0 :: pending).length :=
        Nat.mod_lt _ (by simp)
      have hlen : ((p0 :: pending).eraseIdx (sched.headD 0 % (p0 :: pending).length)).length = n := by
        rw [List.length_eraseIdx, if_pos hlt]
        simpa using h
      obtain ⟨order, hperm, heq⟩ := ih sched.tail _
        (manageUnit exec (ctx results.length) action
          ((p0 :: pending).getD (sched.headD 0 % (p0 :: pending).length) p0) log).2
        (results ++ [(manageUnit exec (ctx results.length) action
          ((p0 :: pending).getD (sched.headD 0 % (p0 :: pending).length) p0) log).1]) hlen
      refine ⟨(p0 :: pending).getD (sched.headD 0 % (p0 :: pending).length) p0 :: order,
        (hperm.cons _).trans (getD_cons_eraseIdx_perm _ _ _ hlt), ?_⟩
      simp only [runGoroutines, runInOrder]
      exact heq

theorem ManageAllProjects_eq_runInOrder (exec : Executor) (ctx : Nat → Option GoError)
    (sched : List Nat) (log : List Invocation) (projects : List Project) (action : ActionType) :
    ∃ order : List Project, order.Perm projects ∧
      ManageAllProjects exec ctx sched log projects action =
        runInOrder exec ctx action order log [] := by
  unfold ManageAllProjects
  split
  · next h =>
    have hp : projects = [] := List.length_eq_zero.mp h
    subst hp
    exact ⟨[], List.Perm.refl _, rfl⟩
  · exact runGoroutines_eq_runInOrder exec ctx action projects.length sched projects log [] rfl

theorem manageUnit_project (exec : Executor) (ctxErr : Option GoError) (action : ActionType)
    (p : Project) (log : List Invocation)
    (h : action = .ActionStart ∨ action = .ActionStop ∨ ctxErr ≠ none) :
    (manageUnit exec ctxErr action p log).1.Project = p := by
  cases ctxErr with
  | some e => rfl
  | none =>
    rcases h with h | h | h
    · subst h
      simp only [manageUnit, StartProject]
      split <;> rfl
    · subst h
      simp only [manageUnit, StopProject]
      split <;> rfl
    · exact absurd rfl h

theorem runInOrder_projects (exec : Executor) (ctx : Nat → Option GoError)
    (action : ActionType)
    (h : action = .ActionStart ∨ action = .ActionStop ∨ ∀ k, ctx k ≠ none)
    (order : List Project) :
    ∀ (log : List Invocation) (results : List Result),
      (runInOrder exec ctx action order log results).1.map (fun r => r.Project) =
        results.map (fun r => r.Project) ++ order := by
  induction order with
  | nil => intro log results; simp [runInOrder]
  | cons p rest ih =>
    intro log results
    have hp := manageUnit_project exec (ctx results.length) action p log
      (h.imp id (fun h2 => h2.imp id (fun h3 => h3 results.length)))
    simp only [runInOrder]
    rw [ih]
    simp [hp]

theorem StartProject_stateless (exec : Executor)
    (hexec : ∀ (l1 l2 : List Invocation) (inv : Invocation), exec l1 inv = exec l2 inv)
    (log : List Invocation) (p : Project) :
    (StartProject exec log p).1 = (StartProject exec [] p).1 := by
  simp only [StartProject, hexec log [] (upInvocation p)]
  split <;> rfl

theorem StopProject_stateless (exec : Executor)
    (hexec : ∀ (l1 l2 : List Invocation) (inv : Invocation), exec l1 inv = exec l2 inv)
    (log : List Invocation) (p : Project) :
    (StopProject exec log p).1 = (StopProject exec [] p).1 := by
  simp only [StopProject, hexec log [] (downInvocation p)]
  split <;> rfl

theorem runInOrder_start (exec : Executor) (ctx : Nat → Option GoError)
    (hexec : ∀ (l1 l2 : List Invocation) (inv : Invocation), exec l1 inv = exec l2 inv)
    (hctx : ∀ k, ctx k = none) (order : List Project) :
    ∀ (log : List Invocation) (results : List Result),
      (runInOrder exec ctx .ActionStart order log results).1 =
        results ++ order.map (fun p => (StartProject exec [] p).1) := by
  induction order with
  | nil => intro log results; simp [runInOrder]
  | cons p rest ih =>
    intro log results
    simp only [runInOrder, hctx, manageUnit]
    rw [ih, StartProject_stateless exec hexec log p]
    simp

theorem runInOrder_stop (exec : Executor) (ctx : Nat → Option GoError)
    (hexec : ∀ (l1 l2 : List Invocation) (inv : Invocation), exec l1 inv = exec l2 inv)
    (hctx : ∀ k, ctx k = none) (order : List Project) :
    ∀ (log : List Invocation) (results : List Result),
      (runInOrder exec ctx .ActionStop order log results).1 =
        results ++ order.map (fun p => (StopProject exec [] p).1) := by
  induction order with
  | nil => intro log results; simp [runInOrder]
  | cons p rest ih =>
    intro log results
    simp only [runInOrder, hctx, manageUnit]
    rw [ih, StopProject_stateless exec hexec log p]
    simp

theorem runInOrder_cancelled (exec : Executor) (ctx : Nat → Option GoError)
    (action : ActionType) (e : GoError) (hctx : ∀ k, ctx k = some e) (order : List Project) :
    ∀ (log : List Invocation) (results : List Result),
      runInOrder exec ctx action order log results =
        (results ++ order.map (fun p => (⟨p, false, "", some e⟩ : Result)), log) := by
  induction order with
  | nil => intro log results; simp [runInOrder]
  | cons p rest ih =>
    intro log results
    simp only [runInOrder, hctx, manageUnit]
    rw [ih]
    simp

theorem StartProject_success (exec : Executor) (log : List Invocation) (p : Project) :
    (StartProject exec log p).1.Success = (exec log (upInvocation p)).2.isNone := by
  simp only [StartProject]
  split <;> rename_i h <;> simp [h]

theorem StopProject_success (exec : Executor) (log : List Invocation) (p : Project) :
    (StopProject exec log p).1.Success = (exec log (downInvocation p)).2.isNone := by
  simp only [StopProject]
  split <;> rename_i h <;> simp [h]

/-! ## C5 -/

/-- C5: for action Start or Stop, whatever the executor does, whatever the
scheduler picks and whatever the state of the context, `ManageAllProjects`
returns as many Results as there are projects, and the Projects of the Results
are a permutation of the input; for an empty input it returns no Result and
makes no call. -/
theorem C5_bulk_results_complete (exec : Executor) (ctx : Nat → Option GoError)
    (sched : List Nat) (log : List Invocation) (projects : List Project) (action : ActionType)
    (hact : action = .ActionStart ∨ action = .ActionStop) :
    (ManageAllProjects exec ctx sched log projects action).1.length = projects.length ∧
    ((ManageAllProjects exec ctx sched log projects action).1.map (fun r => r.Project)).Perm
      projects ∧
    ManageAllProjects exec ctx sched log [] action = ([], log) := by
  obtain ⟨order, hperm, heq⟩ := ManageAllProjects_eq_runInOrder exec ctx sched log projects action
  have hproj := runInOrder_projects exec ctx action
    (hact.elim Or.inl (fun h => Or.inr (Or.inl h))) order log []
  rw [← heq] at hproj
  simp only [List.map_nil, List.nil_append] at hproj
  refine ⟨?_, ?_, rfl⟩
  · have := congrArg List.length hproj
    rw [List.length_map] at this
    rw [this, hperm.length_eq]
  · rw [hproj]; exact hperm

/-- C5 witness: three projects, the command failing for `b`, the goroutines
completing in the order `c`, `a`, `b`. -/
theorem C5_bulk_results_complete_witness :
    (ManageAllProjects
        (fun _ inv => if inv.dir = "/b" then ("boom", some (.errno "exit status 1")) else ("", none))
        (fun _ => none) [2, 0, 0] []
        [⟨"a", "/a", "docker-compose.yml"⟩, ⟨"b", "/b", "docker-compose.yml"⟩,
         ⟨"c", "/c", "docker-compose.yml"⟩] .ActionStart).1.length = 3 ∧
    ((ManageAllProjects
        (fun _ inv => if inv.dir = "/b" then ("boom", some (.errno "exit status 1")) else ("", none))
        (fun _ => none) [2, 0, 0] []
        [⟨"a", "/a", "docker-compose.yml"⟩, ⟨"b", "/b", "docker-compose.yml"⟩,
         ⟨"c", "/c", "docker-compose.yml"⟩] .ActionStart).1.map (fun r => r.Project)).Perm
      [⟨"a", "/a", "docker-compose.yml"⟩, ⟨"b", "/b", "docker-compose.yml"⟩,
       ⟨"c", "/c", "docker-compose.yml"⟩] ∧
    ManageAllProjects
        (fun _ inv => if inv.dir = "/b" then ("boom", some (.errno "exit status 1")) else ("", none))
        (fun _ => none) [2, 0, 0] [] [] .ActionStart = ([], []) :=
  C5_bulk_results_complete _ _ [2, 0, 0] []
    [⟨"a", "/a", "docker-compose.yml"⟩, ⟨"b", "/b", "docker-compose.yml"⟩,
     ⟨"c", "/c", "docker-compose.yml"⟩] .ActionStart (Or.inl rfl)

/-! ## C6 -/

/-- C6, as stated, fails: with action List (or Status) and a context that has
not fired, the goroutine sends the zero Result, whose Project is empty and is
not an element of the input. -/
theorem C6_list_action_gives_empty_project :
    ManageAllProjects (fun _ _ => ("", none)) (fun _ => none) [] []
        [⟨"a", "/a", "docker-compose.yml"⟩] .ActionList
      = ([⟨⟨"", "", ""⟩, false, "", none⟩], []) ∧
    ManageAllProjects (fun _ _ => ("", none)) (fun _ => none) [] []
        [⟨"a", "/a", "docker-compose.yml"⟩] .ActionStatus
      = ([⟨⟨"", "", ""⟩, false, "", none⟩], []) ∧
    (⟨"", "", ""⟩ : Project) ∉ [(⟨"a", "/a", "docker-compose.yml"⟩ : Project)] := by
  refine ⟨?_, ?_, ?_⟩ <;> decide

/-- C6, amended: the Result of `StartProject` and of `StopProject` carries the
Project passed in, and for action Start or Stop every Result returned by
`ManageAllProjects` carries an element of the input list. -/
theorem C6_result_project_from_input (exec : Executor) (ctx : Nat → Option GoError)
    (sched : List Nat) (log : List Invocation) (projects : List Project) (action : ActionType)
    (hact : action = .ActionStart ∨ action = .ActionStop) :
    (∀ p : Project, (StartProject exec log p).1.Project = p) ∧
    (∀ p : Project, (StopProject exec log p).1.Project = p) ∧
    (∀ r ∈ (ManageAllProjects exec ctx sched log projects action).1, r.Project ∈ projects) := by
  refine ⟨?_, ?_, ?_⟩
  · intro p
    exact manageUnit_project exec none .ActionStart p log (Or.inl rfl)
  · intro p
    exact manageUnit_project exec none .ActionStop p log (Or.inr (Or.inl rfl))
  · intro r hr
    obtain ⟨order, hperm, heq⟩ :=
      ManageAllProjects_eq_runInOrder exec ctx sched log projects action
    have hproj := runInOrder_projects exec ctx action
      (hact.elim Or.inl (fun h => Or.inr (Or.inl h))) order log []
    rw [← heq] at hproj
    simp only [List.map_nil, List.nil_append] at hproj
    have hmem : r.Project ∈ (ManageAllProjects exec ctx sched log projects action).1.map
        (fun r => r.Project) := List.mem_map_of_mem _ hr
    rw [hproj] at hmem
    exact hperm.subset hmem

/-- C6 witness: a bulk stop over two projects, the second goroutine completing first. -/
theorem C6_result_project_from_input_witness :
    (∀ p : Project, (StartProject (fun _ _ => ("", none)) [] p).1.Project = p) ∧
    (∀ p : Project, (StopProject (fun _ _ => ("", none)) [] p).1.Project = p) ∧
    (∀ r ∈ (ManageAllProjects (fun _ _ => ("", none)) (fun _ => none) [1] []
        [⟨"a", "/a", "docker-compose.yml"⟩, ⟨"b", "/b", "docker-compose.yaml"⟩] .ActionStop).1,
      r.Project ∈ [(⟨"a", "/a", "docker-compose.yml"⟩ : Project),
        ⟨"b", "/b", "docker-compose.yaml"⟩]) :=
  C6_result_project_from_input (fun _ _ => ("", none)) (fun _ => none) [1] []
    [⟨"a", "/a", "docker-compose.yml"⟩, ⟨"b", "/b", "docker-compose.yaml"⟩] .ActionStop
    (Or.inr rfl)

/-! ## C7 -/

/-- C7: when the context does not fire and the outcome of a command depends on
the invocation only, the Results of a bulk start (resp. stop) are, up to order,
the Results of `StartProject` (resp. `StopProject`) on each input project; so
the successful Results are as many as the projects whose command succeeds. -/
theorem C7_partial_failure_isolated (exec : Executor) (ctx : Nat → Option GoError)
    (sched : List Nat) (log : List Invocation) (projects : List Project)
    (hexec : ∀ (l1 l2 : List Invocation) (inv : Invocation), exec l1 inv = exec l2 inv)
    (hctx : ∀ k, ctx k = none) :
    ((ManageAllProjects exec ctx sched log projects .ActionStart).1.Perm
        (projects.map (fun p => (StartProject exec [] p).1)) ∧
      (ManageAllProjects exec ctx sched log projects .ActionStart).1.countP (fun r => r.Success)
        = projects.countP (fun p => (exec [] (upInvocation p)).2.isNone)) ∧
    ((ManageAllProjects exec ctx sched log projects .ActionStop).1.Perm
        (projects.map (fun p => (StopProject exec [] p).1)) ∧
      (ManageAllProjects exec ctx sched log projects .ActionStop).1.countP (fun r => r.Success)
        = projects.countP (fun p => (exec [] (downInvocation p)).2.isNone)) := by
  constructor
  · obtain ⟨order, hperm, heq⟩ :=
      ManageAllProjects_eq_runInOrder exec ctx sched log projects .ActionStart
    have hres := runInOrder_start exec ctx hexec hctx order log []
    rw [← heq, List.nil_append] at hres
    have hp : (ManageAllProjects exec ctx sched log projects .ActionStart).1.Perm
        (projects.map (fun p => (StartProject exec [] p).1)) := by
      rw [hres]; exact hperm.map _
    refine ⟨hp, ?_⟩
    rw [hp.countP_eq, List.countP_map]
    apply List.countP_congr
    intro p _
    simp [StartProject_success]
  · obtain ⟨order, hperm, heq⟩ :=
      ManageAllProjects_eq_runInOrder exec ctx sched log projects .ActionStop
    have hres := runInOrder_stop exec ctx hexec hctx order log []
    rw [← heq, List.nil_append] at hres
    have hp : (ManageAllProjects exec ctx sched log projects .ActionStop).1.Perm
        (projects.map (fun p => (StopProject exec [] p).1)) := by
      rw [hres]; exact hperm.map _
    refine ⟨hp, ?_⟩
    rw [hp.countP_eq, List.countP_map]
    apply List.countP_congr
    intro p _
    simp [StopProject_success]

/-- C7 witness: a bulk start over three projects where the command fails for
`b`; three Results come back, two successful and one carrying the failure. -/
theorem C7_partial_failure_isolated_witness :
    (((ManageAllProjects
          (fun _ inv => if inv.dir = "/b" then ("boom", some (.errno "exit status 1")) else ("", none))
          (fun _ => none) [2, 0, 0] []
          [⟨"a", "/a", "docker-compose.yml"⟩, ⟨"b", "/b", "docker-compose.yml"⟩,
           ⟨"c", "/c", "docker-compose.yml"⟩] .ActionStart).1.Perm
        ([⟨"a", "/a", "docker-compose.yml"⟩, ⟨"b", "/b", "docker-compose.yml"⟩,
          ⟨"c", "/c", "docker-compose.yml"⟩].map (fun p => (StartProject
          (fun _ inv => if inv.dir = "/b" then ("boom", some (.errno "exit status 1")) else ("", none))
          [] p).1))) ∧
      (ManageAllProjects
          (fun _ inv => if inv.dir = "/b" then ("boom", some (.errno "exit status 1")) else ("", none))
          (fun _ => none) [2, 0, 0] []
          [⟨"a", "/a", "docker-compose.yml"⟩, ⟨"b", "/b", "docker-compose.yml"⟩,
           ⟨"c", "/c", "docker-compose.yml"⟩] .ActionStart).1.countP (fun r => r.Success) = 2) ∧
    ManageAllProjects
        (fun _ inv => if inv.dir = "/b" then ("boom", some (.errno "exit status 1")) else ("", none))
        (fun _ => none) [2, 0, 0] []
        [⟨"a", "/a", "docker-compose.yml"⟩, ⟨"b", "/b", "docker-compose.yml"⟩,
         ⟨"c", "/c", "docker-compose.yml"⟩] .ActionStart =
      ([⟨⟨"c", "/c", "docker-compose.yml"⟩, true, "Successfully started c", none⟩,
        ⟨⟨"a", "/a", "docker-compose.yml"⟩, true, "Successfully started a", none⟩,
        ⟨⟨"b", "/b", "docker-compose.yml"⟩, false, "",
          some (.wrapped "error starting b: exit status 1: boom" (.errno "exit status 1"))⟩],
       [upInvocation ⟨"c", "/c", "docker-compose.yml"⟩,
        upInvocation ⟨"a", "/a", "docker-compose.yml"⟩,
        upInvocation ⟨"b", "/b", "docker-compose.yml"⟩]) :=
  ⟨⟨(C7_partial_failure_isolated
        (fun _ inv => if inv.dir = "/b" then ("boom", some (.errno "exit status 1")) else ("", none))
        (fun _ => none) [2, 0, 0] []
        [⟨"a", "/a", "docker-compose.yml"⟩, ⟨"b", "/b", "docker-compose.yml"⟩,
         ⟨"c", "/c", "docker-compose.yml"⟩] (fun _ _ _ => rfl) (fun _ => rfl)).1.1,
      (C7_partial_failure_isolated
        (fun _ inv => if inv.dir = "/b" then ("boom", some (.errno "exit status 1")) else ("", none))
        (fun _ => none) [2, 0, 0] []
        [⟨"a", "/a", "docker-compose.yml"⟩, ⟨"b", "/b", "docker-compose.yml"⟩,
         ⟨"c", "/c", "docker-compose.yml"⟩] (fun _ _ _ => rfl) (fun _ => rfl)).1.2.trans
        (by decide)⟩,
    by decide⟩

/-! ## C8 -/

/-- C8: when the context has already fired, with error `e`, every goroutine
takes the `ctx.Done()` branch: the Results are, up to order, `Result{Project:
p, Success: false, Error: e}` for each input project `p`, there are as many as
projects, and the executor is not called. -/
theorem C8_cancelled_before_start (exec : Executor) (ctx : Nat → Option GoError)
    (sched : List Nat) (log : List Invocation) (projects : List Project) (action : ActionType)
    (e : GoError) (hctx : ∀ k, ctx k = some e) :
    (ManageAllProjects exec ctx sched log projects action).1.length = projects.length ∧
    (ManageAllProjects exec ctx sched log projects action).1.Perm
      (projects.map (fun p => (⟨p, false, "", some e⟩ : Result))) ∧
    (∀ r ∈ (ManageAllProjects exec ctx sched log projects action).1,
      r.Success = false ∧ r.Error = some e ∧ r.Project ∈ projects) ∧
    (ManageAllProjects exec ctx sched log projects action).2 = log := by
  obtain ⟨order, hperm, heq⟩ := ManageAllProjects_eq_runInOrder exec ctx sched log projects action
  rw [heq, runInOrder_cancelled exec ctx action e hctx order log []]
  simp only [List.nil_append, List.length_map]
  refine ⟨hperm.length_eq, hperm.map _, ?_, trivial⟩
  intro r hr
  obtain ⟨p, hp, rfl⟩ := List.mem_map.mp hr
  exact ⟨rfl, rfl, hperm.subset hp⟩

/-- C8 witness: a bulk start over two projects after the deadline has passed. -/
theorem C8_cancelled_before_start_witness :
    (ManageAllProjects (fun _ _ => ("", none)) (fun _ => some .DeadlineExceeded) [1] []
        [⟨"a", "/a", "docker-compose.yml"⟩, ⟨"b", "/b", "docker-compose.yml"⟩]
        .ActionStart).1.length = 2 ∧
    (ManageAllProjects (fun _ _ => ("", none)) (fun _ => some .DeadlineExceeded) [1] []
        [⟨"a", "/a", "docker-compose.yml"⟩, ⟨"b", "/b", "docker-compose.yml"⟩]
        .ActionStart).1.Perm
      ([⟨"a", "/a", "docker-compose.yml"⟩, ⟨"b", "/b", "docker-compose.yml"⟩].map
        (fun p => (⟨p, false, "", some .DeadlineExceeded⟩ : Result))) ∧
    (∀ r ∈ (ManageAllProjects (fun _ _ => ("", none)) (fun _ => some .DeadlineExceeded) [1] []
        [⟨"a", "/a", "docker-compose.yml"⟩, ⟨"b", "/b", "docker-compose.yml"⟩]
        .ActionStart).1,
      r.Success = false ∧ r.Error = some .DeadlineExceeded ∧
        r.Project ∈ [(⟨"a", "/a", "docker-compose.yml"⟩ : Project),
          ⟨"b", "/b", "docker-compose.yml"⟩]) ∧
    (ManageAllProjects (fun _ _ => ("", none)) (fun _ => some .DeadlineExceeded) [1] []
        [⟨"a", "/a", "docker-compose.yml"⟩, ⟨"b", "/b", "docker-compose.yml"⟩]
        .ActionStart).2 = [] :=
  C8_cancelled_before_start (fun _ _ => ("", none)) (fun _ => some .DeadlineExceeded) [1] []
    [⟨"a", "/a", "docker-compose.yml"⟩, ⟨"b", "/b", "docker-compose.yml"⟩] .ActionStart
    .DeadlineExceeded (fun _ => rfl)

/-! ## Lemmas on the status check -/

theorem statusLoop_running (exec : Executor) (project : Project) (services : List String) :
    ∀ (log : List Invocation) (m : List (String × String)) (r : Bool),
      (statusLoop exec project services log m r).1 = true ↔
        (r = true ∨ ∃ q ∈ statusQueries exec project services log,
          q.2.2 = none ∧ TrimSpace q.2.1 ≠ "" ∧ matchesUpOrRunning (TrimSpace q.2.1) = true) := by
  induction services with
  | nil => intro log m r; simp [statusLoop, statusQueries]
  | cons service rest ih =>
    intro log m r
    by_cases hs : service = ""
    · simp only [statusLoop, statusQueries, hs, if_true]
      exact ih log m r
    · simp only [statusLoop, statusQueries, hs, if_false, List.mem_cons, exists_eq_or_imp]
      by_cases hq : (exec log (statusInvocation project service)).2 ≠ none ∨
          TrimSpace (exec log (statusInvocation project service)).1 = ""
      · rw [if_pos hq, ih]
        have hno : ¬ ((exec log (statusInvocation project service)).2 = none ∧
            TrimSpace (exec log (statusInvocation project service)).1 ≠ "" ∧
            matchesUpOrRunning (TrimSpace (exec log (statusInvocation project service)).1)
              = true) := by
          rintro ⟨h1, h2, _⟩
          rcases hq with h | h
          · exact h h1
          · exact h2 h
        simp only [hno, false_or]
      · rw [if_neg hq, ih]
        have h1 : (exec log (statusInvocation project service)).2 = none := by
          by_contra h; exact hq (Or.inl h)
        have h2 : TrimSpace (exec log (statusInvocation project service)).1 ≠ "" := by
          intro h; exact hq (Or.inr h)
        cases hm : matchesUpOrRunning (TrimSpace (exec log (statusInvocation project service)).1)
        · simp [h1, h2]
        · simp [h1, h2]

theorem TrimSpace_blank (s : String) (h : ∀ c ∈ s.data, isSpace c = true) :
    (TrimSpace s).length = 0 := by
  have hd : s.data.dropWhile isSpace = [] := by
    rw [List.dropWhile_eq_nil_iff]
    exact h
  simp [TrimSpace, hd, String.length]

/-! ## C9 -/

/-- C9, as stated, fails: the status query of the only service `api` fails, so
`"not running"` is stored for it; this value of the returned mapping contains
`running`, yet the project is reported as not running. -/
theorem C9_not_running_text_contains_running :
    CheckProjectStatus
        (scripted
          [(["compose", "ps", "-a", "--format", "json"], "[\x7b\x7d]", none),
           (["compose", "config", "--services"], "api\n", none),
           (["compose", "ps", "api", "--format", "\x7b\x7b.Status\x7d\x7d"], "",
              some (.errno "exit status 1"))])
        [] ⟨"shop", "/srv/shop", "docker-compose.yml"⟩
      = ((false, [("api", "not running")], none),
          [psAllInvocation ⟨"shop", "/srv/shop", "docker-compose.yml"⟩,
           servicesInvocation ⟨"shop", "/srv/shop", "docker-compose.yml"⟩,
           statusInvocation ⟨"shop", "/srv/shop", "docker-compose.yml"⟩ "api"]) ∧
    (∃ kv ∈ [("api", "not running")], matchesUpOrRunning kv.2 = true) := by
  refine ⟨by decide, ("api", "not running"), by decide, by decide⟩

/-- C9, amended: `CheckProjectStatus` reports running = true if and only if the
container list is not empty, the services are listed, and the status query of
at least one listed non-empty service succeeds with a non-blank output whose
trimmed text, the one stored for the service, contains `up` or `running`
without regard to case.  The `"not running"` stored for a failed or blank
query does not count. -/
theorem C9_running_iff_some_query_up (exec : Executor) (log : List Invocation)
    (project : Project) :
    (CheckProjectStatus exec log project).1.1 = true ↔
      ∃ output servicesOutput : String,
        exec log (psAllInvocation project) = (output, none) ∧
        ¬ ((TrimSpace output).length = 0 ∨ output = "[]") ∧
        exec (log ++ [psAllInvocation project]) (servicesInvocation project)
          = (servicesOutput, none) ∧
        ∃ q ∈ statusQueries exec project (Split (TrimSpace servicesOutput))
            (log ++ [psAllInvocation project] ++ [servicesInvocation project]),
          q.2.2 = none ∧ TrimSpace q.2.1 ≠ "" ∧
            matchesUpOrRunning (TrimSpace q.2.1) = true := by
  unfold CheckProjectStatus
  rcases h1 : exec log (psAllInvocation project) with ⟨output, _ | err⟩
  · by_cases hb : (TrimSpace output).length = 0 ∨ output = "[]"
    · simp only [if_pos hb]
      constructor
      · intro h; cases h
      · rintro ⟨o, so, ho, hnb, -⟩
        have : o = output := by cases ho; rfl
        subst this
        exact absurd hb hnb
    · simp only [if_neg hb]
      rcases h2 : exec (log ++ [psAllInvocation project]) (servicesInvocation project)
        with ⟨servicesOutput, _ | err2⟩
      · by_cases he : (Split (TrimSpace servicesOutput)).length = 0 ∨
            ((Split (TrimSpace servicesOutput)).length = 1 ∧
              (Split (TrimSpace servicesOutput)).head? = some "")
        · simp only [if_pos he]
          constructor
          · intro h; cases h
          · rintro ⟨o, so, -, -, hso, q, hq, -⟩
            have : so = servicesOutput := by cases hso; rfl
            subst this
            have hnil : statusQueries exec project (Split (TrimSpace so))
                (log ++ [psAllInvocation project] ++ [servicesInvocation project]) = [] := by
              rcases he with he | ⟨hl, hh⟩
              · rw [List.length_eq_zero.mp he]; rfl
              · obtain ⟨a, ha⟩ := List.length_eq_one.mp hl
                rw [ha] at hh ⊢
                simp only [List.head?_cons, Option.some.injEq] at hh
                subst hh
                simp [statusQueries]
            rw [hnil] at hq
            cases hq
        · simp only [if_neg he]
          rw [statusLoop_running]
          constructor
          · rintro (h | ⟨q, hq, hgood⟩)
            · cases h
            · exact ⟨output, servicesOutput, rfl, hb, rfl, q, hq, hgood⟩
          · rintro ⟨o, so, ho, -, hso, q, hq, hgood⟩
            have : so = servicesOutput := by cases hso; rfl
            subst this
            exact Or.inr ⟨q, hq, hgood⟩
      · constructor
        · intro h; cases h
        · rintro ⟨o, so, -, -, hso, -⟩
          cases hso
  · constructor
    · intro h; cases h
    · rintro ⟨o, so, ho, -⟩
      cases ho

/-- C9 witness: with services `api` answering `Exited (0)` and `db` answering
`Up 2 hours` the project is running; with `db` answering `Exited (1)` it is not. -/
theorem C9_running_iff_some_query_up_witness :
    (CheckProjectStatus
        (scripted
          [(["compose", "ps", "-a", "--format", "json"], "[\x7b\x7d]", none),
           (["compose", "config", "--services"], "api\ndb\n", none),
           (["compose", "ps", "api", "--format", "\x7b\x7b.Status\x7d\x7d"], "Exited (0)\n", none),
           (["compose", "ps", "db", "--format", "\x7b\x7b.Status\x7d\x7d"], "Up 2 hours\n", none)])
        [] ⟨"shop", "/srv/shop", "docker-compose.yml"⟩).1.1 = true ∧
    CheckProjectStatus
        (scripted
          [(["compose", "ps", "-a", "--format", "json"], "[\x7b\x7d]", none),
           (["compose", "config", "--services"], "api\ndb\n", none),
           (["compose", "ps", "api", "--format", "\x7b\x7b.Status\x7d\x7d"], "Exited (0)\n", none),
           (["compose", "ps", "db", "--format", "\x7b\x7b.Status\x7d\x7d"], "Exited (1)\n", none)])
        [] ⟨"shop", "/srv/shop", "docker-compose.yml"⟩
      = ((false, [("api", "Exited (0)"), ("db", "Exited (1)")], none),
          [psAllInvocation ⟨"shop", "/srv/shop", "docker-compose.yml"⟩,
           servicesInvocation ⟨"shop", "/srv/shop", "docker-compose.yml"⟩,
           statusInvocation ⟨"shop", "/srv/shop", "docker-compose.yml"⟩ "api",
           statusInvocation ⟨"shop", "/srv/shop", "docker-compose.yml"⟩ "db"]) :=
  ⟨(C9_running_iff_some_query_up _ [] ⟨"shop", "/srv/shop", "docker-compose.yml"⟩).mpr
      ⟨"[\x7b\x7d]", "api\ndb\n", by decide, by decide, by decide,
        ("db", "Up 2 hours\n", none), by decide, by decide, by decide, by decide⟩,
    by decide⟩

/-! ## C10 -/

/-- C10: when the container listing succeeds with an output that is empty, made
of white space only, or literally `[]`, `CheckProjectStatus` returns running =
false, no service entry and no error, and the listing is the only call made. -/
theorem C10_empty_container_list (exec : Executor) (log : List Invocation) (project : Project)
    (output : String) (hexec : exec log (psAllInvocation project) = (output, none))
    (hempty : output = "" ∨ (∀ c ∈ output.data, isSpace c = true) ∨ output = "[]") :
    CheckProjectStatus exec log project =
      ((false, [], none), log ++ [psAllInvocation project]) := by
  have hb : (TrimSpace output).length = 0 ∨ output = "[]" := by
    rcases hempty with h | h | h
    · subst h; exact Or.inl (by decide)
    · exact Or.inl (TrimSpace_blank output h)
    · exact Or.inr h
  simp only [CheckProjectStatus, hexec, if_pos hb]

/-- C10 witness: the listing answers `[]`; one call is made, although the table
would answer the services listing. -/
theorem C10_empty_container_list_witness :
    CheckProjectStatus
        (scripted
          [(["compose", "ps", "-a", "--format", "json"], "[]", none),
           (["compose", "config", "--services"], "api\n", none)])
        [] ⟨"shop", "/srv/shop", "docker-compose.yml"⟩
      = ((false, [], none), [] ++ [psAllInvocation ⟨"shop", "/srv/shop", "docker-compose.yml"⟩]) :=
  C10_empty_container_list _ [] ⟨"shop", "/srv/shop", "docker-compose.yml"⟩ "[]"
    (by decide) (Or.inr (Or.inr rfl))

/-! ## Lemmas on the service loop -/

theorem mem_mapSet (m : List (String × String)) (k v k' v' : String) :
    (k', v') ∈ mapSet m k v ↔ ((k', v') ∈ m ∧ k' ≠ k) ∨ (k' = k ∧ v' = v) := by
  simp [mapSet, List.mem_filter]

theorem statusLoop_map (exec : Executor) (project : Project) (services : List String) :
    ∀ (log : List Invocation) (m : List (String × String)) (r : Bool),
      (statusLoop exec project services log m r).2.1 =
        (statusQueries exec project services log).foldl
          (fun acc q => mapSet acc q.1 (storedStatus q.2)) m := by
  induction services with
  | nil => intro log m r; rfl
  | cons service rest ih =>
    intro log m r
    by_cases hs : service = ""
    · simp only [statusLoop, statusQueries, hs, if_true]
      exact ih log m r
    · simp only [statusLoop, statusQueries, hs, if_false, List.foldl_cons]
      by_cases hq : (exec log (statusInvocation project service)).2 ≠ none ∨
          TrimSpace (exec log (statusInvocation project service)).1 = ""
      · have hv : storedStatus (exec log (statusInvocation project service)) = "not running" :=
          if_pos hq
        rw [if_pos hq, ih, hv]
      · have hv : storedStatus (exec log (statusInvocation project service)) =
            TrimSpace (exec log (statusInvocation project service)).1 := if_neg hq
        rw [if_neg hq, ih, hv]

theorem statusLoop_log (exec : Executor) (project : Project) (services : List String) :
    ∀ (log : List Invocation) (m : List (String × String)) (r : Bool),
      (statusLoop exec project services log m r).2.2 =
        log ++ (services.filter (fun s => s ≠ "")).map (statusInvocation project) := by
  induction services with
  | nil => intro log m r; simp [statusLoop]
  | cons service rest ih =>
    intro log m r
    by_cases hs : service = ""
    · simp only [statusLoop, hs, if_true]
      rw [ih]
      simp
    · simp only [statusLoop, hs, if_false]
      split <;> rw [ih] <;> simp [hs]

theorem statusQueries_names (exec : Executor) (project : Project) (services : List String) :
    ∀ log : List Invocation,
      (statusQueries exec project services log).map (fun q => q.1) =
        services.filter (fun s => s ≠ "") := by
  induction services with
  | nil => intro log; rfl
  | cons service rest ih =>
    intro log
    by_cases hs : service = ""
    · simp only [statusQueries, hs, if_true]
      rw [ih]
      simp
    · simp only [statusQueries, hs, if_false, List.map_cons]
      rw [ih]
      simp [hs]

theorem foldl_mapSet_keys (qs : List (String × String × Option GoError)) :
    ∀ (m : List (String × String)) (k : String),
      (∃ v, (k, v) ∈ qs.foldl (fun acc q => mapSet acc q.1 (storedStatus q.2)) m) ↔
        ((∃ v, (k, v) ∈ m) ∨ k ∈ qs.map (fun q => q.1)) := by
  induction qs with
  | nil => intro m k; simp
  | cons q qs ih =>
    intro m k
    rw [List.foldl_cons, ih]
    simp only [mem_mapSet, List.map_cons, List.mem_cons]
    constructor
    · rintro (⟨v, (⟨hm, _⟩ | ⟨hk, _⟩)⟩ | h)
      · exact Or.inl ⟨v, hm⟩
      · exact Or.inr (Or.inl hk)
      · exact Or.inr (Or.inr h)
    · rintro (⟨v, hm⟩ | hk | h)
      · by_cases hk : k = q.1
        · exact Or.inl ⟨storedStatus q.2, Or.inr ⟨hk, rfl⟩⟩
        · exact Or.inl ⟨v, Or.inl ⟨hm, hk⟩⟩
      · exact Or.inl ⟨storedStatus q.2, Or.inr ⟨hk, rfl⟩⟩
      · exact Or.inr h

theorem foldl_mapSet_other (qs : List (String × String × Option GoError)) (k v : String)
    (hk : ∀ q ∈ qs, q.1 ≠ k) :
    ∀ m : List (String × String),
      (k, v) ∈ qs.foldl (fun acc q => mapSet acc q.1 (storedStatus q.2)) m ↔ (k, v) ∈ m := by
  induction qs with
  | nil => intro m; rfl
  | cons q qs ih =>
    intro m
    have hq : q.1 ≠ k := hk q (List.mem_cons_self _ _)
    rw [List.foldl_cons, ih (fun x hx => hk x (List.mem_cons_of_mem _ hx)), mem_mapSet]
    constructor
    · rintro (⟨hm, _⟩ | ⟨h, _⟩)
      · exact hm
      · exact absurd h.symm hq
    · intro hm
      exact Or.inl ⟨hm, fun h => hq h.symm⟩

theorem foldl_mapSet_last (pre post : List (String × String × Option GoError))
    (q : String × String × Option GoError) (hpost : ∀ x ∈ post, x.1 ≠ q.1)
    (m : List (String × String)) (v : String) :
    (q.1, v) ∈ (pre ++ q :: post).foldl (fun acc x => mapSet acc x.1 (storedStatus x.2)) m ↔
      v = storedStatus q.2 := by
  rw [List.foldl_append, List.foldl_cons, foldl_mapSet_other post q.1 v hpost, mem_mapSet]
  constructor
  · rintro (⟨_, h⟩ | ⟨_, h⟩)
    · exact absurd rfl h
    · exact h
  · intro h
    exact Or.inr ⟨rfl, h⟩

theorem no_services_filter (services : List String)
    (he : services.length = 0 ∨ (services.length = 1 ∧ services.head? = some "")) :
    services.filter (fun s => s ≠ "") = [] := by
  rcases he with he | ⟨hl, hh⟩
  · rw [List.length_eq_zero.mp he]; rfl
  · obtain ⟨a, ha⟩ := List.length_eq_one.mp hl
    rw [ha] at hh ⊢
    simp only [List.head?_cons, Option.some.injEq] at hh
    subst hh
    rfl

theorem CheckProjectStatus_listed (exec : Executor) (log : List Invocation) (project : Project)
    (output servicesOutput : String)
    (h1 : exec log (psAllInvocation project) = (output, none))
    (hne : ¬ ((TrimSpace output).length = 0 ∨ output = "[]"))
    (h2 : exec (log ++ [psAllInvocation project]) (servicesInvocation project)
      = (servicesOutput, none)) :
    (CheckProjectStatus exec log project).1.2.2 = none ∧
    (CheckProjectStatus exec log project).1.2.1 =
      (statusQueries exec project (Split (TrimSpace servicesOutput))
          (log ++ [psAllInvocation project] ++ [servicesInvocation project])).foldl
        (fun acc q => mapSet acc q.1 (storedStatus q.2)) [] ∧
    (CheckProjectStatus exec log project).2 =
      log ++ [psAllInvocation project] ++ [servicesInvocation project] ++
        ((Split (TrimSpace servicesOutput)).filter (fun s => s ≠ "")).map
          (statusInvocation project) := by
  simp only [CheckProjectStatus, h1, if_neg hne, h2]
  by_cases he : (Split (TrimSpace servicesOutput)).length = 0 ∨
      ((Split (TrimSpace servicesOutput)).length = 1 ∧
        (Split (TrimSpace servicesOutput)).head? = some "")
  · have hf := no_services_filter _ he
    have hq : statusQueries exec project (Split (TrimSpace servicesOutput))
        (log ++ [psAllInvocation project] ++ [servicesInvocation project]) = [] := by
      have := statusQueries_names exec project (Split (TrimSpace servicesOutput))
        (log ++ [psAllInvocation project] ++ [servicesInvocation project])
      rw [hf] at this
      exact List.map_eq_nil_iff.mp this
    simp only [if_pos he, hf, hq, List.foldl_nil, List.map_nil, List.append_nil, and_self]
  · simp only [if_neg he]
    refine ⟨trivial, ?_, ?_⟩
    · exact statusLoop_map exec project _ _ [] false
    · exact statusLoop_log exec project _ _ [] false

/-! ## C11 -/

/-- C11: when the container list is not empty and the services command
succeeds, `CheckProjectStatus` returns no error and a mapping whose keys are
exactly the non-empty service names listed; the value stored for a service is
the one of its status query (the last one, should the name be listed twice):
`"not running"` when the query fails or answers blank, the trimmed output
otherwise.  A failing query therefore does not stop the queries after it. -/
theorem C11_service_failure_isolated (exec : Executor) (log : List Invocation)
    (project : Project) (output servicesOutput : String)
    (h1 : exec log (psAllInvocation project) = (output, none))
    (hne : ¬ ((TrimSpace output).length = 0 ∨ output = "[]"))
    (h2 : exec (log ++ [psAllInvocation project]) (servicesInvocation project)
      = (servicesOutput, none)) :
    (CheckProjectStatus exec log project).1.2.2 = none ∧
    (∀ k : String, (∃ v, (k, v) ∈ (CheckProjectStatus exec log project).1.2.1) ↔
      (k ≠ "" ∧ k ∈ Split (TrimSpace servicesOutput))) ∧
    (∀ (pre post : List (String × String × Option GoError))
        (q : String × String × Option GoError),
      statusQueries exec project (Split (TrimSpace servicesOutput))
          (log ++ [psAllInvocation project] ++ [servicesInvocation project])
        = pre ++ q :: post →
      (∀ x ∈ post, x.1 ≠ q.1) →
      ∀ v : String, (q.1, v) ∈ (CheckProjectStatus exec log project).1.2.1 ↔
        v = (if q.2.2 ≠ none ∨ TrimSpace q.2.1 = "" then "not running"
             else TrimSpace q.2.1)) := by
  obtain ⟨herr, hmap, -⟩ :=
    CheckProjectStatus_listed exec log project output servicesOutput h1 hne h2
  refine ⟨herr, ?_, ?_⟩
  · intro k
    rw [hmap, foldl_mapSet_keys, statusQueries_names]
    simp only [List.not_mem_nil, exists_false, false_or, List.mem_filter, ne_eq,
      decide_eq_true_eq, decide_not, Bool.not_eq_true', decide_eq_false_iff_not]
    exact ⟨fun h => ⟨h.2, h.1⟩, fun h => ⟨h.2, h.1⟩⟩
  · intro pre post q hq hpost v
    rw [hmap, hq]
    exact foldl_mapSet_last pre post q hpost [] v

/-- C11 witness: for `shop` the query of `api` fails and the one of `db`
answers; both services are keys of the mapping returned. -/
theorem C11_service_failure_isolated_witness :
    (CheckProjectStatus shopExecutor [] shop).1.2.2 = none ∧
    (∀ k : String, (∃ v, (k, v) ∈ (CheckProjectStatus shopExecutor [] shop).1.2.1) ↔
      (k ≠ "" ∧ k ∈ Split (TrimSpace "api\n\ndb\n"))) ∧
    (∀ (pre post : List (String × String × Option GoError))
        (q : String × String × Option GoError),
      statusQueries shopExecutor shop (Split (TrimSpace "api\n\ndb\n"))
          ([] ++ [psAllInvocation shop] ++ [servicesInvocation shop])
        = pre ++ q :: post →
      (∀ x ∈ post, x.1 ≠ q.1) →
      ∀ v : String, (q.1, v) ∈ (CheckProjectStatus shopExecutor [] shop).1.2.1 ↔
        v = (if q.2.2 ≠ none ∨ TrimSpace q.2.1 = "" then "not running"
             else TrimSpace q.2.1)) :=
  C11_service_failure_isolated shopExecutor [] shop "[\x7b\x7d]" "api\n\ndb\n"
    (by decide) (by decide) (by decide)

/-- The run behind the C11 witness: `api` is stored as `"not running"`, `db` as
`"Up 2 hours"`, and the project is running. -/
theorem CheckProjectStatus_shop :
    CheckProjectStatus shopExecutor [] shop =
      ((true, [("api", "not running"), ("db", "Up 2 hours")], none),
        [psAllInvocation shop, servicesInvocation shop, statusInvocation shop "api",
          statusInvocation shop "db"]) := by
  decide

/-! ## C12 -/

/-- C12: `StartProject` and `StopProject` each make exactly one call, `docker
compose up -d` resp. `docker compose down`, in the directory `project.Path`,
and return a Result for the project passed in.  When the call succeeds the
Result is successful, has no error and the message `Successfully started
<name>` resp. `Successfully stopped <name>`; when it fails the Result is not
successful, has an empty message and an error that wraps the error of the
call, with the text `error starting <name>: <error>: <output>` resp. `error
stopping ...`. -/
theorem C12_start_stop_protocol (exec : Executor) (log : List Invocation) (project : Project) :
    ((StartProject exec log project).2 =
        log ++ [⟨project.Path, "docker", ["compose", "up", "-d"]⟩] ∧
      (StartProject exec log project).1.Project = project ∧
      (∀ output : String,
        exec log ⟨project.Path, "docker", ["compose", "up", "-d"]⟩ = (output, none) →
        (StartProject exec log project).1 =
          ⟨project, true, "Successfully started " ++ project.Name, none⟩) ∧
      (∀ (output : String) (err : GoError),
        exec log ⟨project.Path, "docker", ["compose", "up", "-d"]⟩ = (output, some err) →
        (StartProject exec log project).1 =
          ⟨project, false, "", some (.wrapped
            ("error starting " ++ project.Name ++ ": " ++ err.Error ++ ": " ++ output) err)⟩)) ∧
    ((StopProject exec log project).2 =
        log ++ [⟨project.Path, "docker", ["compose", "down"]⟩] ∧
      (StopProject exec log project).1.Project = project ∧
      (∀ output : String,
        exec log ⟨project.Path, "docker", ["compose", "down"]⟩ = (output, none) →
        (StopProject exec log project).1 =
          ⟨project, true, "Successfully stopped " ++ project.Name, none⟩) ∧
      (∀ (output : String) (err : GoError),
        exec log ⟨project.Path, "docker", ["compose", "down"]⟩ = (output, some err) →
        (StopProject exec log project).1 =
          ⟨project, false, "", some (.wrapped
            ("error stopping " ++ project.Name ++ ": " ++ err.Error ++ ": " ++ output) err)⟩)) := by
  constructor
  · refine ⟨?_, ?_, ?_, ?_⟩
    · simp only [StartProject, upInvocation]; split <;> rfl
    · simp only [StartProject]; split <;> rfl
    · intro output h
      simp only [StartProject, upInvocation, h]
    · intro output err h
      simp only [StartProject, upInvocation, h]
  · refine ⟨?_, ?_, ?_, ?_⟩
    · simp only [StopProject, downInvocation]; split <;> rfl
    · simp only [StopProject]; split <;> rfl
    · intro output h
      simp only [StopProject, downInvocation, h]
    · intro output err h
      simp only [StopProject, downInvocation, h]

/-- C12 witness: starting `shop` fails with `exit status 1` and the output
`boom`; stopping it succeeds. -/
theorem C12_start_stop_protocol_witness :
    (StartProject
        (fun _ inv => if inv.args = ["compose", "up", "-d"] then
          ("boom", some (.errno "exit status 1")) else ("", none)) [] shop).1 =
      ⟨shop, false, "", some (.wrapped
        ("error starting " ++ shop.Name ++ ": " ++ (GoError.errno "exit status 1").Error
          ++ ": " ++ "boom") (.errno "exit status 1"))⟩ ∧
    (StopProject
        (fun _ inv => if inv.args = ["compose", "up", "-d"] then
          ("boom", some (.errno "exit status 1")) else ("", none)) [] shop).1 =
      ⟨shop, true, "Successfully stopped " ++ shop.Name, none⟩ ∧
    (StartProject
        (fun _ inv => if inv.args = ["compose", "up", "-d"] then
          ("boom", some (.errno "exit status 1")) else ("", none)) [] shop).2 =
      [] ++ [⟨shop.Path, "docker", ["compose", "up", "-d"]⟩] :=
  ⟨(C12_start_stop_protocol _ [] shop).1.2.2.2 "boom" (.errno "exit status 1") (by decide),
    (C12_start_stop_protocol _ [] shop).2.2.2.1 "" (by decide),
    (C12_start_stop_protocol _ [] shop).1.1⟩

/-! ## Lemmas on the managed registry -/

theorem aliasTaken_iff (l : List ManagedProject) (a : String) :
    aliasTaken l a = true ↔ ∃ p ∈ l, p.Alias = a := by
  induction l with
  | nil => simp [aliasTaken]
  | cons x l ih =>
    by_cases hx : x.Alias = a
    · simp [aliasTaken, hx]
    · simp [aliasTaken, hx, ih]

theorem removeLoop_none (all : List ManagedProject) (a : String) (rest : List ManagedProject)
    (h : ∀ x ∈ rest, x.Alias ≠ a) : ∀ i : Nat, removeLoop all a rest i = none := by
  induction rest with
  | nil => intro i; rfl
  | cons x rest ih =>
    intro i
    have hx : x.Alias ≠ a := h x (List.mem_cons_self _ _)
    simp only [removeLoop, hx, if_false]
    exact ih (fun y hy => h y (List.mem_cons_of_mem _ hy)) (i + 1)

theorem removeLoop_first (a : String) (mid post : List ManagedProject) (e : ManagedProject)
    (he : e.Alias = a) :
    ∀ (pre : List ManagedProject), (∀ x ∈ mid, x.Alias ≠ a) →
      removeLoop (pre ++ (mid ++ e :: post)) a (mid ++ e :: post) pre.length =
        some (pre ++ (mid ++ post)) := by
  induction mid with
  | nil =>
    intro pre _
    simp only [List.nil_append, removeLoop, he, if_true]
    congr 1
    rw [List.take_left', List.drop_append_eq_append_drop]
    · simp
    · rfl
  | cons m mid ih =>
    intro pre hmid
    have hm : m.Alias ≠ a := hmid m (List.mem_cons_self _ _)
    simp only [List.cons_append, removeLoop, hm, if_false]
    have := ih (pre ++ [m]) (fun y hy => hmid y (List.mem_cons_of_mem _ hy))
    simpa using this

theorem exists_first_alias (l : List ManagedProject) (a : String)
    (h : ∃ p ∈ l, p.Alias = a) :
    ∃ (pre post : List ManagedProject) (e : ManagedProject),
      l = pre ++ e :: post ∧ e.Alias = a ∧ ∀ x ∈ pre, x.Alias ≠ a := by
  induction l with
  | nil => simp at h
  | cons x l ih =>
    by_cases hx : x.Alias = a
    · exact ⟨[], l, x, rfl, hx, by simp⟩
    · obtain ⟨p, hp, hpa⟩ := h
      have hl : ∃ p ∈ l, p.Alias = a := by
        rcases List.mem_cons.mp hp with rfl | hp
        · exact absurd hpa hx
        · exact ⟨p, hp, hpa⟩
      obtain ⟨pre, post, e, rfl, he, hpre⟩ := ih hl
      refine ⟨x :: pre, post, e, rfl, he, ?_⟩
      intro y hy
      rcases List.mem_cons.mp hy with rfl | hy
      · exact hx
      · exact hpre y hy

theorem RemoveManagedProject_absent (cfg : ManagedConfig) (a : String)
    (h : ∀ x ∈ cfg.Projects, x.Alias ≠ a) :
    RemoveManagedProject cfg a =
      (cfg, some (.errno ("no project found with alias \x27" ++ a ++ "\x27"))) := by
  simp only [RemoveManagedProject, removeLoop_none cfg.Projects a cfg.Projects h 0]

theorem RemoveManagedProject_present (a : String) (pre post : List ManagedProject)
    (e : ManagedProject) (he : e.Alias = a) (hpre : ∀ x ∈ pre, x.Alias ≠ a) :
    RemoveManagedProject ⟨pre ++ e :: post⟩ a = (⟨pre ++ post⟩, none) := by
  have := removeLoop_first a pre post e he [] hpre
  simp only [List.nil_append, List.length_nil] at this
  simp only [RemoveManagedProject, this]

/-! ## C13 -/

/-- C13: `AddManagedProject` returns an error if and only if some entry of the
managed list has exactly the given alias, and then the configuration is left
as it was. -/
theorem C13_add_fails_iff_alias_taken (cfg : ManagedConfig) (project : Project) (a : String) :
    ((AddManagedProject cfg project a).2 ≠ none ↔ ∃ p ∈ cfg.Projects, p.Alias = a) ∧
    ((AddManagedProject cfg project a).2 ≠ none → (AddManagedProject cfg project a).1 = cfg) := by
  by_cases h : aliasTaken cfg.Projects a = true
  · have hex := (aliasTaken_iff cfg.Projects a).mp h
    simp only [AddManagedProject, h, if_true, ne_eq, reduceCtorEq, not_false_eq_true,
      true_iff, implies_true, and_true]
    exact hex
  · have hex : ¬ ∃ p ∈ cfg.Projects, p.Alias = a := fun hx => h ((aliasTaken_iff _ _).mpr hx)
    have hf : aliasTaken cfg.Projects a = false := by simpa using h
    simp only [AddManagedProject, hf, Bool.false_eq_true, if_false]
    exact ⟨⟨fun hne => absurd rfl hne, fun hx => absurd hx hex⟩, fun hne => absurd rfl hne⟩

/-- C13 witness: adding the alias `web` a second time fails and leaves the list as it was. -/
theorem C13_add_fails_iff_alias_taken_witness :
    (AddManagedProject ⟨[⟨"db", ⟨"db", "/srv/db", "docker-compose.yml"⟩⟩,
        ⟨"web", ⟨"web", "/srv/web", "docker-compose.yml"⟩⟩]⟩
      ⟨"site", "/srv/site", "docker-compose.yaml"⟩ "web").1 =
      ⟨[⟨"db", ⟨"db", "/srv/db", "docker-compose.yml"⟩⟩,
        ⟨"web", ⟨"web", "/srv/web", "docker-compose.yml"⟩⟩]⟩ :=
  (C13_add_fails_iff_alias_taken
    ⟨[⟨"db", ⟨"db", "/srv/db", "docker-compose.yml"⟩⟩,
      ⟨"web", ⟨"web", "/srv/web", "docker-compose.yml"⟩⟩]⟩
    ⟨"site", "/srv/site", "docker-compose.yaml"⟩ "web").2 (by decide)

/-! ## C14 -/

/-- C14: `RemoveManagedProject` returns an error if and only if no entry of the
managed list has exactly the given alias, and then the configuration is left
as it was. -/
theorem C14_remove_fails_iff_alias_absent (cfg : ManagedConfig) (a : String) :
    ((RemoveManagedProject cfg a).2 ≠ none ↔ ∀ p ∈ cfg.Projects, p.Alias ≠ a) ∧
    ((RemoveManagedProject cfg a).2 ≠ none → (RemoveManagedProject cfg a).1 = cfg) := by
  by_cases h : ∃ p ∈ cfg.Projects, p.Alias = a
  · obtain ⟨pre, post, e, hl, he, hpre⟩ := exists_first_alias cfg.Projects a h
    have hcfg : cfg = ⟨pre ++ e :: post⟩ := by cases cfg; simp only at hl; rw [hl]
    have hr := RemoveManagedProject_present a pre post e he hpre
    rw [← hcfg] at hr
    rw [hr]
    constructor
    · constructor
      · intro hne; exact absurd rfl hne
      · intro hall
        obtain ⟨p, hp, hpa⟩ := h
        exact absurd hpa (hall p hp)
    · intro hne; exact absurd rfl hne
  · have hall : ∀ p ∈ cfg.Projects, p.Alias ≠ a := fun p hp hpa => h ⟨p, hp, hpa⟩
    rw [RemoveManagedProject_absent cfg a hall]
    exact ⟨⟨fun _ => hall, fun _ => by simp⟩, fun _ => rfl⟩

/-- C14 witness: removing the alias `we`, which no entry has, fails and leaves
the list as it was. -/
theorem C14_remove_fails_iff_alias_absent_witness :
    (RemoveManagedProject ⟨[⟨"db", ⟨"db", "/srv/db", "docker-compose.yml"⟩⟩,
        ⟨"web", ⟨"web", "/srv/web", "docker-compose.yml"⟩⟩]⟩ "we").1 =
      ⟨[⟨"db", ⟨"db", "/srv/db", "docker-compose.yml"⟩⟩,
        ⟨"web", ⟨"web", "/srv/web", "docker-compose.yml"⟩⟩]⟩ :=
  (C14_remove_fails_iff_alias_absent
    ⟨[⟨"db", ⟨"db", "/srv/db", "docker-compose.yml"⟩⟩,
      ⟨"web", ⟨"web", "/srv/web", "docker-compose.yml"⟩⟩]⟩ "we").2 (by decide)

/-! ## C18 -/

/-- C18: when `RemoveManagedProject` succeeds, the list it leaves is the
original list without its first entry having exactly the given alias: the
entries before and after that entry are kept, in their order, and the length
decreases by one. -/
theorem C18_remove_deletes_first_match (cfg : ManagedConfig) (a : String)
    (hok : (RemoveManagedProject cfg a).2 = none) :
    ∃ (pre post : List ManagedProject) (e : ManagedProject),
      cfg.Projects = pre ++ e :: post ∧ e.Alias = a ∧ (∀ x ∈ pre, x.Alias ≠ a) ∧
      (RemoveManagedProject cfg a).1.Projects = pre ++ post ∧
      (RemoveManagedProject cfg a).1.Projects.length + 1 = cfg.Projects.length := by
  by_cases h : ∃ p ∈ cfg.Projects, p.Alias = a
  · obtain ⟨pre, post, e, hl, he, hpre⟩ := exists_first_alias cfg.Projects a h
    have hcfg : cfg = ⟨pre ++ e :: post⟩ := by cases cfg; simp only at hl; rw [hl]
    have hr := RemoveManagedProject_present a pre post e he hpre
    rw [← hcfg] at hr
    refine ⟨pre, post, e, hl, he, hpre, ?_, ?_⟩
    · rw [hr]
    · rw [hr, hl]; simp; omega
  · have hall : ∀ p ∈ cfg.Projects, p.Alias ≠ a := fun p hp hpa => h ⟨p, hp, hpa⟩
    rw [RemoveManagedProject_absent cfg a hall] at hok
    simp at hok

/-- C18 witness: of two entries with the alias `web`, the first is deleted. -/
theorem C18_remove_deletes_first_match_witness :
    ∃ (pre post : List ManagedProject) (e : ManagedProject),
      (⟨[⟨"db", ⟨"db", "/srv/db", "docker-compose.yml"⟩⟩,
         ⟨"web", ⟨"web", "/srv/web", "docker-compose.yml"⟩⟩,
         ⟨"web", ⟨"site", "/srv/site", "docker-compose.yaml"⟩⟩]⟩ : ManagedConfig).Projects
        = pre ++ e :: post ∧ e.Alias = "web" ∧ (∀ x ∈ pre, x.Alias ≠ "web") ∧
      (RemoveManagedProject
        ⟨[⟨"db", ⟨"db", "/srv/db", "docker-compose.yml"⟩⟩,
          ⟨"web", ⟨"web", "/srv/web", "docker-compose.yml"⟩⟩,
          ⟨"web", ⟨"site", "/srv/site", "docker-compose.yaml"⟩⟩]⟩ "web").1.Projects
        = pre ++ post ∧
      (RemoveManagedProject
        ⟨[⟨"db", ⟨"db", "/srv/db", "docker-compose.yml"⟩⟩,
          ⟨"web", ⟨"web", "/srv/web", "docker-compose.yml"⟩⟩,
          ⟨"web", ⟨"site", "/srv/site", "docker-compose.yaml"⟩⟩]⟩ "web").1.Projects.length + 1
        = (⟨[⟨"db", ⟨"db", "/srv/db", "docker-compose.yml"⟩⟩,
         ⟨"web", ⟨"web", "/srv/web", "docker-compose.yml"⟩⟩,
         ⟨"web", ⟨"site", "/srv/site", "docker-compose.yaml"⟩⟩]⟩ : ManagedConfig).Projects.length :=
  C18_remove_deletes_first_match
    ⟨[⟨"db", ⟨"db", "/srv/db", "docker-compose.yml"⟩⟩,
      ⟨"web", ⟨"web", "/srv/web", "docker-compose.yml"⟩⟩,
      ⟨"web", ⟨"site", "/srv/site", "docker-compose.yaml"⟩⟩]⟩ "web" (by decide)

/-! ## C15 -/

theorem AddManagedProject_nodup (cfg : ManagedConfig) (project : Project) (a : String)
    (h : (cfg.Projects.map (fun p => p.Alias)).Nodup) :
    ((AddManagedProject cfg project a).1.Projects.map (fun p => p.Alias)).Nodup := by
  by_cases ht : aliasTaken cfg.Projects a = true
  · simp only [AddManagedProject, ht, if_true]
    exact h
  · have hex : ¬ ∃ p ∈ cfg.Projects, p.Alias = a := fun hx => ht ((aliasTaken_iff _ _).mpr hx)
    have hf : aliasTaken cfg.Projects a = false := by simpa using ht
    simp only [AddManagedProject, hf, Bool.false_eq_true, if_false, List.map_append,
      List.map_cons, List.map_nil]
    rw [List.nodup_append]
    refine ⟨h, List.nodup_singleton _, ?_⟩
    intro x hx hxa
    rw [List.mem_singleton] at hxa
    subst hxa
    obtain ⟨p, hp, hpa⟩ := List.mem_map.mp hx
    exact hex ⟨p, hp, hpa⟩

theorem RemoveManagedProject_nodup (cfg : ManagedConfig) (a : String)
    (h : (cfg.Projects.map (fun p => p.Alias)).Nodup) :
    ((RemoveManagedProject cfg a).1.Projects.map (fun p => p.Alias)).Nodup := by
  by_cases hex : ∃ p ∈ cfg.Projects, p.Alias = a
  · obtain ⟨pre, post, e, hl, he, hpre⟩ := exists_first_alias cfg.Projects a hex
    have hcfg : cfg = ⟨pre ++ e :: post⟩ := by cases cfg; simp only at hl; rw [hl]
    have hr := RemoveManagedProject_present a pre post e he hpre
    rw [← hcfg] at hr
    rw [hr]
    rw [hl] at h
    have hsub : (pre ++ post).Sublist (pre ++ e :: post) :=
      List.Sublist.append_left (List.sublist_cons_self e post) pre
    exact h.sublist (hsub.map _)
  · have hall : ∀ p ∈ cfg.Projects, p.Alias ≠ a := fun p hp hpa => hex ⟨p, hp, hpa⟩
    rw [RemoveManagedProject_absent cfg a hall]
    exact h

/-- C15: if the aliases of the managed list are pairwise distinct, they still
are after any sequence of `AddManagedProject` and `RemoveManagedProject`
calls, whether the calls succeed or fail. -/
theorem C15_alias_uniqueness_invariant (cfg : ManagedConfig) (calls : List RegistryCall)
    (h : (cfg.Projects.map (fun p => p.Alias)).Nodup) :
    ((runCalls cfg calls).Projects.map (fun p => p.Alias)).Nodup := by
  induction calls generalizing cfg with
  | nil => exact h
  | cons call rest ih =>
    apply ih
    cases call with
    | add project a => exact AddManagedProject_nodup cfg project a h
    | remove a => exact RemoveManagedProject_nodup cfg a h

/-- C15 witness: from the empty list, two adds of `web` (the second fails), an
add of `db`, a remove of `web` and a remove of an absent alias. -/
theorem C15_alias_uniqueness_invariant_witness :
    ((runCalls ⟨[]⟩
        [.add ⟨"web", "/srv/web", "docker-compose.yml"⟩ "web",
         .add ⟨"site", "/srv/site", "docker-compose.yml"⟩ "web",
         .add ⟨"db", "/srv/db", "docker-compose.yml"⟩ "db",
         .remove "web", .remove "cache"]).Projects.map (fun p => p.Alias)).Nodup :=
  C15_alias_uniqueness_invariant ⟨[]⟩
    [.add ⟨"web", "/srv/web", "docker-compose.yml"⟩ "web",
     .add ⟨"site", "/srv/site", "docker-compose.yml"⟩ "web",
     .add ⟨"db", "/srv/db", "docker-compose.yml"⟩ "db",
     .remove "web", .remove "cache"] (by decide)

/-! ## C16 -/

theorem FindProject_none (t : CaseTables) (q : String) (l : List Project)
    (h : ∀ x ∈ l, containsChars (ToLower t x.Name) (ToLower t q) = false) :
    FindProject t l q = (⟨"", "", ""⟩, false) := by
  induction l with
  | nil => rfl
  | cons a l ih =>
    have ha := h a (List.mem_cons_self _ _)
    simp only [FindProject, ha]
    exact ih (fun x hx => h x (List.mem_cons_of_mem _ hx))

theorem FindProject_first (t : CaseTables) (q : String) (pre post : List Project) (p : Project)
    (hpre : ∀ x ∈ pre, containsChars (ToLower t x.Name) (ToLower t q) = false)
    (hp : containsChars (ToLower t p.Name) (ToLower t q) = true) :
    FindProject t (pre ++ p :: post) q = (p, true) := by
  induction pre with
  | nil => simp [FindProject, hp]
  | cons a pre ih =>
    have ha := hpre a (List.mem_cons_self _ _)
    simp only [List.cons_append, FindProject, ha]
    exact ih (fun x hx => hpre x (List.mem_cons_of_mem _ hx))

theorem FindProject_found (t : CaseTables) (q : String) (l : List Project)
    (h : ∃ x ∈ l, containsChars (ToLower t x.Name) (ToLower t q) = true) :
    (FindProject t l q).2 = true := by
  induction l with
  | nil => simp at h
  | cons a l ih =>
    cases ha : containsChars (ToLower t a.Name) (ToLower t q)
    · simp only [FindProject, ha]
      apply ih
      obtain ⟨x, hx, hxq⟩ := h
      rcases List.mem_cons.mp hx with rfl | hx
      · rw [ha] at hxq; cases hxq
      · exact ⟨x, hx, hxq⟩
    · simp [FindProject, ha]

/-- C16: `FindProject` returns `(p, true)` for the first project, in registry
order, whose lowered name contains the lowered query, and returns the zero
Project with `false` exactly when no name contains the query.  It only reads
the registry: it is a function of the registry and the query, so two calls
with the same arguments return the same project. -/
theorem C16_find_project_first_match (t : CaseTables) (q : String) :
    (∀ (pre post : List Project) (p : Project),
      (∀ x ∈ pre, containsChars (ToLower t x.Name) (ToLower t q) = false) →
      containsChars (ToLower t p.Name) (ToLower t q) = true →
      FindProject t (pre ++ p :: post) q = (p, true)) ∧
    (∀ projects : List Project,
      FindProject t projects q = (⟨"", "", ""⟩, false) ↔
        ∀ x ∈ projects, containsChars (ToLower t x.Name) (ToLower t q) = false) ∧
    (∀ (projects : List Project) (first second : Project × Bool),
      first = FindProject t projects q → second = FindProject t projects q →
      first.1 = second.1) := by
  refine ⟨?_, ?_, ?_⟩
  · intro pre post p hpre hp
    exact FindProject_first t q pre post p hpre hp
  · intro projects
    constructor
    · intro h x hx
      cases hc : containsChars (ToLower t x.Name) (ToLower t q)
      · rfl
      · have := FindProject_found t q projects ⟨x, hx, hc⟩
        rw [h] at this
        cases this
    · exact FindProject_none t q projects
  · intro projects first second h1 h2
    rw [h1, h2]

/-- C16 witness: the query `WEB` finds `Web-App`, the first of two matching projects. -/
theorem C16_find_project_first_match_witness :
    FindProject asciiCase
      ([⟨"db", "/srv/db", "docker-compose.yml"⟩] ++
        ⟨"Web-App", "/srv/web-app", "docker-compose.yml"⟩ ::
        [⟨"web", "/srv/web", "docker-compose.yml"⟩]) "WEB"
      = (⟨"Web-App", "/srv/web-app", "docker-compose.yml"⟩, true) :=
  (C16_find_project_first_match asciiCase "WEB").1
    [⟨"db", "/srv/db", "docker-compose.yml"⟩] [⟨"web", "/srv/web", "docker-compose.yml"⟩]
    ⟨"Web-App", "/srv/web-app", "docker-compose.yml"⟩ (by decide) (by decide)

/-! ## C17 -/

/-- C17: when the container list is not empty and the services command
succeeds, the calls made by `CheckProjectStatus` are, in this order, the
container listing, the services listing and one status query for each
non-empty entry of the newline-separated service list, in listed order: 2 + N
calls, each in the directory `project.Path`.  When the service list is empty
the result is running = false, no entry and no error, after exactly these two
calls. -/
theorem C17_status_call_sequence (exec : Executor) (log : List Invocation) (project : Project)
    (output servicesOutput : String)
    (h1 : exec log (psAllInvocation project) = (output, none))
    (hne : ¬ ((TrimSpace output).length = 0 ∨ output = "[]"))
    (h2 : exec (log ++ [psAllInvocation project]) (servicesInvocation project)
      = (servicesOutput, none)) :
    (CheckProjectStatus exec log project).2 =
      log ++ [psAllInvocation project, servicesInvocation project] ++
        ((Split (TrimSpace servicesOutput)).filter (fun s => s ≠ "")).map
          (fun service => (⟨project.Path, "docker",
            ["compose", "ps", service, "--format", "\x7b\x7b.Status\x7d\x7d"]⟩ : Invocation)) ∧
    (CheckProjectStatus exec log project).2.length =
      log.length + (2 + ((Split (TrimSpace servicesOutput)).filter (fun s => s ≠ "")).length) ∧
    (∀ inv ∈ (CheckProjectStatus exec log project).2.drop log.length,
      inv.dir = project.Path) ∧
    (TrimSpace servicesOutput = "" →
      CheckProjectStatus exec log project =
        ((false, [], none), log ++ [psAllInvocation project, servicesInvocation project])) := by
  obtain ⟨-, -, hlog⟩ :=
    CheckProjectStatus_listed exec log project output servicesOutput h1 hne h2
  have hlog2 : (CheckProjectStatus exec log project).2 =
      log ++ ([psAllInvocation project, servicesInvocation project] ++
        ((Split (TrimSpace servicesOutput)).filter (fun s => s ≠ "")).map
          (statusInvocation project)) := by
    rw [hlog]; simp
  refine ⟨?_, ?_, ?_, ?_⟩
  · rw [hlog2]; simp [statusInvocation]
  · rw [hlog2]; simp; omega
  · intro inv hinv
    rw [hlog2, List.drop_left] at hinv
    simp only [List.cons_append, List.nil_append, List.mem_cons, List.mem_map] at hinv
    rcases hinv with rfl | rfl | ⟨s, -, rfl⟩ <;> rfl
  · intro hs
    have hsplit : Split "" = [""] := by decide
    simp only [CheckProjectStatus, h1, if_neg hne, h2, hs, hsplit]
    simp

/-- C17 witness: for `shop` the service list has the entries `api`, an empty
one and `db`; four calls are made. -/
theorem C17_status_call_sequence_witness :
    (CheckProjectStatus shopExecutor [] shop).2 =
      [] ++ [psAllInvocation shop, servicesInvocation shop] ++
        ((Split (TrimSpace "api\n\ndb\n")).filter (fun s => s ≠ "")).map
          (fun service => (⟨shop.Path, "docker",
            ["compose", "ps", service, "--format", "\x7b\x7b.Status\x7d\x7d"]⟩ : Invocation)) ∧
    (CheckProjectStatus shopExecutor [] shop).2.length = 4 :=
  ⟨(C17_status_call_sequence shopExecutor [] shop "[\x7b\x7d]" "api\n\ndb\n"
      (by decide) (by decide) (by decide)).1,
    (C17_status_call_sequence shopExecutor [] shop "[\x7b\x7d]" "api\n\ndb\n"
      (by decide) (by decide) (by decide)).2.1.trans (by decide)⟩

/-! ## C19 -/

theorem equalFoldChars_refl (t : CaseTables) (s : List Char) : equalFoldChars t s s = true := by
  induction s with
  | nil => rfl
  | cons c s ih => simp [equalFoldChars, ih]

theorem aliasMatches_self (t : CaseTables) (a : String) (p : Project) :
    aliasMatches t ⟨a, p⟩ a = true := by
  simp [aliasMatches, EqualFold, equalFoldChars_refl]

theorem findManagedLoop_append_left (t : CaseTables) (q : String)
    (l l2 : List ManagedProject) (h : ∃ x ∈ l, aliasMatches t x q = true) :
    findManagedLoop t (l ++ l2) q = findManagedLoop t l q := by
  induction l with
  | nil => simp at h
  | cons a l ih =>
    cases ha : aliasMatches t a q
    · simp only [List.cons_append, findManagedLoop, ha]
      apply ih
      obtain ⟨x, hx, hxq⟩ := h
      rcases List.mem_cons.mp hx with rfl | hx
      · rw [ha] at hxq; cases hxq
      · exact ⟨x, hx, hxq⟩
    · simp [findManagedLoop, ha]

theorem findManagedLoop_found (t : CaseTables) (q : String) (l : List ManagedProject)
    (h : ∃ x ∈ l, aliasMatches t x q = true) : (findManagedLoop t l q).2 = true := by
  induction l with
  | nil => simp at h
  | cons a l ih =>
    cases ha : aliasMatches t a q
    · simp only [findManagedLoop, ha]
      apply ih
      obtain ⟨x, hx, hxq⟩ := h
      rcases List.mem_cons.mp hx with rfl | hx
      · rw [ha] at hxq; cases hxq
      · exact ⟨x, hx, hxq⟩
    · simp [findManagedLoop, ha]

/-- C19, as stated, fails: adding the alias `web` to a list that holds `web-app`
succeeds and appends the entry, but looking `web` up then returns the older
entry `web-app`. -/
theorem C19_lookup_returns_older_entry :
    AddManagedProject ⟨[⟨"web-app", ⟨"web-app", "/srv/web-app", "docker-compose.yml"⟩⟩]⟩
        ⟨"web", "/srv/web", "docker-compose.yml"⟩ "web"
      = (⟨[⟨"web-app", ⟨"web-app", "/srv/web-app", "docker-compose.yml"⟩⟩,
           ⟨"web", ⟨"web", "/srv/web", "docker-compose.yml"⟩⟩]⟩, none) ∧
    FindManagedProject asciiCase
        (AddManagedProject ⟨[⟨"web-app", ⟨"web-app", "/srv/web-app", "docker-compose.yml"⟩⟩]⟩
          ⟨"web", "/srv/web", "docker-compose.yml"⟩ "web").1 "web"
      = (⟨"web-app", ⟨"web-app", "/srv/web-app", "docker-compose.yml"⟩⟩, true) ∧
    (⟨"web-app", ⟨"web-app", "/srv/web-app", "docker-compose.yml"⟩⟩ : ManagedProject)
      ≠ ⟨"web", ⟨"web", "/srv/web", "docker-compose.yml"⟩⟩ := by
  refine ⟨?_, ?_, ?_⟩ <;> decide

/-- C19, amended: when `AddManagedProject` succeeds, the list afterwards is the
old list with the entry `{alias, project}` appended, and looking the alias up
finds an entry; it finds the new entry when no entry of the old list has an
alias that equals the added one under case folding or contains it without
regard to case, and otherwise the same older entry as before the add. -/
theorem C19_add_then_find (t : CaseTables) (cfg : ManagedConfig) (project : Project)
    (a : String) (hok : (AddManagedProject cfg project a).2 = none) :
    (AddManagedProject cfg project a).1 = ⟨cfg.Projects ++ [⟨a, project⟩]⟩ ∧
    (FindManagedProject t (AddManagedProject cfg project a).1 a).2 = true ∧
    ((∀ x ∈ cfg.Projects, aliasMatches t x a = false) →
      FindManagedProject t (AddManagedProject cfg project a).1 a = (⟨a, project⟩, true)) ∧
    ((∃ x ∈ cfg.Projects, aliasMatches t x a = true) →
      FindManagedProject t (AddManagedProject cfg project a).1 a =
        FindManagedProject t cfg a) := by
  have hadd : (AddManagedProject cfg project a).1 = ⟨cfg.Projects ++ [⟨a, project⟩]⟩ := by
    by_cases ht : aliasTaken cfg.Projects a = true
    · simp [AddManagedProject, ht] at hok
    · have hf : aliasTaken cfg.Projects a = false := by simpa using ht
      simp only [AddManagedProject, hf, Bool.false_eq_true, if_false]
  have hnew : (∀ x ∈ cfg.Projects, aliasMatches t x a = false) →
      FindManagedProject t (AddManagedProject cfg project a).1 a = (⟨a, project⟩, true) := by
    intro hnone
    rw [hadd]
    exact findManagedLoop_first t cfg.Projects [] ⟨a, project⟩ a hnone
      (aliasMatches_self t a project)
  have hold : (∃ x ∈ cfg.Projects, aliasMatches t x a = true) →
      FindManagedProject t (AddManagedProject cfg project a).1 a =
        FindManagedProject t cfg a := by
    intro hsome
    rw [hadd]
    exact findManagedLoop_append_left t a cfg.Projects _ hsome
  refine ⟨hadd, ?_, hnew, hold⟩
  by_cases hex : ∃ x ∈ cfg.Projects, aliasMatches t x a = true
  · rw [hold hex]
    exact findManagedLoop_found t a cfg.Projects hex
  · have hnone : ∀ x ∈ cfg.Projects, aliasMatches t x a = false := by
      intro x hx
      cases hc : aliasMatches t x a
      · rfl
      · exact absurd ⟨x, hx, hc⟩ hex
    rw [hnew hnone]

/-- C19 witness: adding `api` to a list that holds `web-app`: no older alias
matches `api`, and the lookup returns the entry just added. -/
theorem C19_add_then_find_witness :
    (AddManagedProject ⟨[⟨"web-app", ⟨"web-app", "/srv/web-app", "docker-compose.yml"⟩⟩]⟩
        ⟨"api", "/srv/api", "docker-compose.yml"⟩ "api").1
      = ⟨[⟨"web-app", ⟨"web-app", "/srv/web-app", "docker-compose.yml"⟩⟩] ++
          [⟨"api", ⟨"api", "/srv/api", "docker-compose.yml"⟩⟩]⟩ ∧
    FindManagedProject asciiCase
        (AddManagedProject ⟨[⟨"web-app", ⟨"web-app", "/srv/web-app", "docker-compose.yml"⟩⟩]⟩
          ⟨"api", "/srv/api", "docker-compose.yml"⟩ "api").1 "api"
      = (⟨"api", ⟨"api", "/srv/api", "docker-compose.yml"⟩⟩, true) :=
  ⟨(C19_add_then_find asciiCase
      ⟨[⟨"web-app", ⟨"web-app", "/srv/web-app", "docker-compose.yml"⟩⟩]⟩
      ⟨"api", "/srv/api", "docker-compose.yml"⟩ "api" (by decide)).1,
    (C19_add_then_find asciiCase
      ⟨[⟨"web-app", ⟨"web-app", "/srv/web-app", "docker-compose.yml"⟩⟩]⟩
      ⟨"api", "/srv/api", "docker-compose.yml"⟩ "api" (by decide)).2.2.1 (by decide)⟩

end Dcm
